import Mathlib

/-!
Shallow embedding of the mm0 export core: the environment model of
`src/mm0-rs/src/elab/environment.rs` and the MMB exporter of
`src/mm0-rs/src/export_mmb.rs`, with theorems checking the specification
claims about them.

Modelling conventions, used throughout:
* Rust `HashMap<K, V>` becomes an association list `List (K × V)` looked up
  with `List.find?`; `try_insert` checks the lookup and appends on vacancy.
  Iteration over a hash map (whose order Rust leaves unspecified) becomes
  iteration over the association list in insertion order.
* `ArcString` becomes `String`; `Arc<Coe>` becomes plain nesting (the `Arc`
  is only shared-ownership plumbing).
* Machine integers become `Nat`.  Where Rust's types bound a value (`u8`
  sort ids in packed bytes) the embedding reduces mod 256 at the packing
  site; where Rust converts with `try_into().unwrap()`/`expect` or panics,
  the embedding returns `none`.
* `&mut self` methods become functions returning the updated value.  A
  method that can mutate and then fail (such as `ParserEnv::add_coe`)
  returns the updated state paired with `Option` of the error, so that
  partial mutation before an error stays observable.
-/

namespace MM0

/-- Modelled from the spec (the repository's `util.rs` is not in `src/`):
a half-open source region. Rust: `pub struct Span { start: usize, end: usize }`. -/
structure Span where
  start : Nat
  stop : Nat
deriving DecidableEq, Repr

/-- Modelled from the spec (the repository's `lined_string.rs` is not in `src/`):
a span together with the file it comes from. -/
structure FileSpan where
  file : String
  span : Span
deriving DecidableEq, Repr

/-- Modelled from the spec (the repository's `parser/ast.rs` is not in `src/`):
a bitset of declaration modifiers; the spec fixes 1=Pure, 2=Strict,
4=Provable, 8=Free for the sort bits, and a separate visibility bit `LOCAL`. -/
structure Modifiers where
  bits : Nat
deriving DecidableEq, Repr

def Modifiers.PURE : Modifiers := ⟨1⟩

def Modifiers.STRICT : Modifiers := ⟨2⟩

def Modifiers.PROVABLE : Modifiers := ⟨4⟩

def Modifiers.FREE : Modifiers := ⟨8⟩

def Modifiers.LOCAL : Modifiers := ⟨16⟩

/-- Rust: `Modifiers::contains` restricted to the single-bit masks used in
the sources. -/
def Modifiers.contains (m other : Modifiers) : Bool :=
  m.bits &&& other.bits = other.bits

/-- Rust: `SortID(pub u8)`.  The `u8` bound shows up where the id is packed
into bytes and at `try_into` sites. -/
structure SortID where
  n : Nat
deriving DecidableEq, Repr

/-- Rust: `TermID(pub u32)`. -/
structure TermID where
  n : Nat
deriving DecidableEq, Repr

/-- Rust: `ThmID(pub u32)`. -/
structure ThmID where
  n : Nat
deriving DecidableEq, Repr

/-- Rust: `struct Sort { name, span, mods }` (named `SortData` because `Sort`
is a Lean keyword). -/
structure SortData where
  name : String
  span : FileSpan
  mods : Modifiers
deriving DecidableEq, Repr

/-- Rust: `enum Type { Bound(SortID), Reg(SortID, u64) }` (named `Ty` because
`Type` is a Lean keyword). -/
inductive Ty where
  | bound (s : SortID)
  | reg (s : SortID) (deps : Nat)
deriving DecidableEq, Repr

/-- The sort component of a type; the exporter reads it as field `.0` of the
return type. -/
def Ty.sort : Ty → SortID
  | .bound s => s
  | .reg s _ => s

/-- The dependency mask of a type; the exporter reads it as field `.1` of the
return type (a bound return type does not occur, its mask reads as 0). -/
def Ty.deps : Ty → Nat
  | .bound _ => 0
  | .reg _ d => d

/-- Rust: `enum ExprNode { Ref(usize), Dummy(String, SortID), App(TermID, Vec<ExprNode>) }`. -/
inductive ExprNode where
  | ref (i : Nat)
  | dummy (name : String) (s : SortID)
  | app (t : TermID) (es : List ExprNode)
deriving Repr

/-- Rust: `struct Expr { heap: Vec<ExprNode>, head: ExprNode }`. -/
structure Expr where
  heap : List ExprNode
  head : ExprNode
deriving Repr

/-- Rust: `struct Term { span, vis, id, args, ret, val }`. -/
structure Term where
  span : FileSpan
  vis : Modifiers
  id : Span
  args : List (String × Ty)
  ret : Ty
  val : Option Expr
deriving Repr

/-- Rust: `enum ProofNode { Ref, Term, Thm, Conv }` as declared in
`environment.rs` (the exporter file pattern-matches additional variants
`Dummy` and `Hyp` that this repository's `ProofNode` does not declare). -/
inductive ProofNode where
  | ref (i : Nat)
  | term (t : TermID) (args : List ProofNode)
  | thm (t : ThmID) (args : List ProofNode) (hyps : List ProofNode) (tgt : ProofNode)
  | conv (tgt : ProofNode) (proof : ProofNode)
deriving Repr

/-- Rust: `struct Proof { heap: Vec<ProofNode>, head: ProofNode }`. -/
structure Proof where
  heap : List ProofNode
  head : ProofNode
deriving Repr

/-- Rust: `struct Thm { span, vis, id, args, heap, hyps, ret, proof }`. -/
structure Thm where
  span : FileSpan
  vis : Modifiers
  id : Span
  args : List (String × Ty)
  heap : List ExprNode
  hyps : List ExprNode
  ret : ExprNode
  proof : Option Proof
deriving Repr

/-- Rust: `enum StmtTrace { Sort(ArcString), Decl(ArcString) }`. -/
inductive StmtTrace where
  | sort (s : String)
  | decl (s : String)
deriving DecidableEq, Repr

/-- Rust: `enum DeclKey { Term(TermID), Thm(ThmID) }`. -/
inductive DeclKey where
  | term (t : TermID)
  | thm (t : ThmID)
deriving DecidableEq, Repr

/-- Modelled from the spec (the repository's `parser/ast.rs` is not in
`src/`): a precedence level, either a numeric level or the maximum. -/
inductive Prec where
  | prec (n : Nat)
  | max
deriving DecidableEq, Repr

/-- Rust: `enum Literal { Var(usize, Prec), Const(ArcString) }`. -/
inductive Literal where
  | var (n : Nat) (p : Prec)
  | const (s : String)
deriving DecidableEq, Repr

/-- Rust: `struct NotaInfo { span, term, nargs, rassoc, lits }`. -/
structure NotaInfo where
  span : FileSpan
  term : TermID
  nargs : Nat
  rassoc : Option Bool
  lits : List Literal
deriving DecidableEq, Repr

/-- Rust: `enum Coe { One(FileSpan, TermID), Trans(Arc<Coe>, SortID, Arc<Coe>) }`. -/
inductive Coe where
  | one (fsp : FileSpan) (t : TermID)
  | trans (c1 : Coe) (s : SortID) (c2 : Coe)
deriving DecidableEq, Repr

/-- Rust: `struct Delims([u8; 32])`, the 256-bit delimiter set, as its list
of 32 bytes. -/
structure Delims where
  bytes : List Nat
deriving DecidableEq, Repr

/-- Rust: `Delims::merge`, a bytewise OR into the receiver. -/
def Delims.merge (d other : Delims) : Delims :=
  ⟨List.zipWith (fun a b => a ||| b) d.bytes other.bytes⟩

/-- Rust: `struct ParserEnv`.  The two-level coercion map
`HashMap<SortID, HashMap<SortID, Arc<Coe>>>` is flattened to an edge list
`(source, target, tree)`; at most one entry per `(source, target)` pair is
ever inserted, matching the nested-map shape. -/
structure ParserEnv where
  delims_l : Delims
  delims_r : Delims
  consts : List (String × (FileSpan × Prec))
  prec_assoc : List (Nat × (FileSpan × Bool))
  prefixes : List (String × NotaInfo)
  infixes : List (String × NotaInfo)
  coes : List (SortID × SortID × Coe)
  coe_prov : List (SortID × SortID)
deriving DecidableEq, Repr

/-- Rust: `struct Environment`.  The scripting-atom dictionary and lisp
context (`atoms`, `lisp_ctx`) are omitted: the spec scopes the scripting
subsystem out, no claim mentions it, and its values (`LispVal`) are defined
in a module that is not part of the sources. -/
structure Environment where
  sort_keys : List (String × SortID)
  sorts : List SortData
  pe : ParserEnv
  decl_keys : List (String × DeclKey)
  terms : List Term
  thms : List Thm
  stmts : List StmtTrace
deriving Repr

/-- Association-list lookup standing in for `HashMap` indexing/`get`. -/
def alookup {α β : Type} [DecidableEq α] (l : List (α × β)) (k : α) : Option β :=
  (l.find? (fun p => p.1 = k)).map (·.2)

/-- Rust: `struct IncompatibleError { decl1, decl2 }`. -/
structure IncompatibleError where
  decl1 : FileSpan
  decl2 : FileSpan
deriving DecidableEq, Repr

/-- Rust: `struct ElabError` (from `elab/mod.rs`, reconstructed from its use
sites: a span, a message, and a list of related source positions). -/
structure ElabError where
  span : Span
  msg : String
  related : List (FileSpan × String)
deriving DecidableEq, Repr

/-- Rust: `ElabError::with_info`. -/
def ElabError.with_info (sp : Span) (msg : String) (related : List (FileSpan × String)) : ElabError :=
  ⟨sp, msg, related⟩

/-- Rust: `ElabError::new_e`. -/
def ElabError.new_e (sp : Span) (msg : String) : ElabError :=
  ⟨sp, msg, []⟩

/-- Rust: `ParserEnv::add_const`. -/
def ParserEnv.add_const (pe : ParserEnv) (tk : String) (sp : FileSpan) (p : Prec) :
    Except IncompatibleError ParserEnv :=
  match alookup pe.consts tk with
  | some e => if e.2 = p then .ok pe else .error ⟨e.1, sp⟩
  | none => .ok { pe with consts := pe.consts ++ [(tk, (sp, p))] }

/-- Rust: `ParserEnv::add_prec_assoc`. -/
def ParserEnv.add_prec_assoc (pe : ParserEnv) (p : Nat) (sp : FileSpan) (r : Bool) :
    Except IncompatibleError ParserEnv :=
  match alookup pe.prec_assoc p with
  | some e =>
    if e.2 = r then .ok pe
    else if r then .error ⟨e.1, sp⟩ else .error ⟨sp, e.1⟩
  | none => .ok { pe with prec_assoc := pe.prec_assoc ++ [(p, (sp, r))] }

/-- Rust: `ParserEnv::add_nota_info`, the shared body of `add_prefix` and
`add_infix`; it acts on the given notation table. -/
def ParserEnv.add_nota_info (m : List (String × NotaInfo)) (tk : String) (n : NotaInfo) :
    Except IncompatibleError (List (String × NotaInfo)) :=
  match alookup m tk with
  | some e => if e.span = n.span then .ok m else .error ⟨e.span, n.span⟩
  | none => .ok (m ++ [(tk, n)])

/-- Name of a sort id in a sort table.  Rust indexes `sorts[s]` (which would
panic out of range); an out-of-range id renders as the empty name, which the
claims never exercise. -/
def sortName (sorts : List SortData) (s : SortID) : String :=
  ((sorts[s.n]?).map (·.name)).getD ""

/-- Rust: `Coe::write_arrows_r`; returns the extended message string and the
extended related-position list. -/
def Coe.write_arrows_r (sorts : List SortData) :
    Coe → String → List (FileSpan × String) → SortID → SortID →
    String × List (FileSpan × String)
  | .one fsp _, s, related, sl, sr =>
    (s ++ " -> " ++ sortName sorts sr,
     related ++ [(fsp, sortName sorts sl ++ " -> " ++ sortName sorts sr)])
  | .trans c1 sm c2, s, related, sl, sr =>
    let r1 := c1.write_arrows_r sorts s related sl sm
    c2.write_arrows_r sorts r1.1 r1.2 sm sr

/-- Rust: `Coe::write_arrows`. -/
def Coe.write_arrows (c : Coe) (sorts : List SortData) (s : String)
    (related : List (FileSpan × String)) (s1 s2 : SortID) :
    String × List (FileSpan × String) :=
  c.write_arrows_r sorts (s ++ sortName sorts s1) related s1 s2

/-- Whether the coercion edge list has an edge with the given endpoints. -/
def hasCoe (coes : List (SortID × SortID × Coe)) (a b : SortID) : Bool :=
  coes.any (fun e => e.1 = a ∧ e.2.1 = b)

/-- Lookup of an edge by its endpoints (the nested-map lookup
`coes.get(&s1).and_then(|m| m.get(&s2))`). -/
def coeLookup (coes : List (SortID × SortID × Coe)) (a b : SortID) : Option Coe :=
  (coes.find? (fun e => e.1 = a ∧ e.2.1 = b)).map (·.2.2)

/-- Rust: `ParserEnv::add_coe1`, acting on the flattened edge list: reject a
cycle (`s1 = s2`), reject a diamond (an `s1 → s2` edge already present),
otherwise insert the edge. -/
def add_coe1 (coes : List (SortID × SortID × Coe)) (sp : Span) (sorts : List SortData)
    (s1 s2 : SortID) (c : Coe) : Except ElabError (List (SortID × SortID × Coe)) :=
  if s1 = s2 then
    let r := c.write_arrows sorts "coercion cycle detected: " [] s1 s2
    .error (ElabError.with_info sp r.1 r.2)
  else
    match coeLookup coes s1 s2 with
    | some e =>
      let r1 := e.write_arrows sorts "coercion diamond detected: " [] s1 s2
      let r2 := c.write_arrows sorts (r1.1 ++ ";   ") r1.2 s1 s2
      .error (ElabError.with_info sp r2.1 r2.2)
    | none => .ok (coes ++ [(s1, s2, c)])

/-- Folding `add_coe1` over a todo list with the `?` short-circuit of
`add_coe_raw`: on the first error the edges inserted so far are kept (the
Rust method mutates `self` in place) and the error is reported. -/
def addCoeList (sp : Span) (sorts : List SortData) :
    List (SortID × SortID × Coe) → List (SortID × SortID × Coe) →
    List (SortID × SortID × Coe) × Option ElabError
  | coes, [] => (coes, none)
  | coes, (s1, s2, c) :: todo =>
    match add_coe1 coes sp sorts s1 s2 c with
    | .error e => (coes, some e)
    | .ok coes2 => addCoeList sp sorts coes2 todo

/-- Rust: `ParserEnv::update_provs`: recompute the provable-target
projection; report a diamond when some source reaches two provable sorts.
On error `coe_prov` is left unchanged. -/
def updateProvsList (sp : Span) (sorts : List SortData)
    (coes : List (SortID × SortID × Coe)) :
    List (SortID × SortID) → List (SortID × SortID) →
    Except ElabError (List (SortID × SortID))
  | provs, [] => .ok provs
  | provs, (s1, s2) :: rest =>
    if (sorts[s2.n]?).any (fun sd => sd.mods.contains Modifiers.PROVABLE) then
      match alookup provs s1 with
      | some s2' =>
        let r1 := (match coeLookup coes s1 s2 with
          | some c => c.write_arrows sorts "coercion diamond to provable detected:\n" [] s1 s2
          | none => ("coercion diamond to provable detected:\n", []))
        let r2 := (match coeLookup coes s1 s2' with
          | some c => c.write_arrows sorts (r1.1 ++ " provable\n") r1.2 s1 s2'
          | none => (r1.1 ++ " provable\n", r1.2))
        .error (ElabError.with_info sp (r2.1 ++ " provable") r2.2)
      | none => updateProvsList sp sorts coes (provs ++ [(s1, s2)]) rest
    else updateProvsList sp sorts coes provs rest

/-- Rust: `ParserEnv::update_provs`. -/
def ParserEnv.update_provs (pe : ParserEnv) (sp : Span) (sorts : List SortData) :
    ParserEnv × Option ElabError :=
  match updateProvsList sp sorts pe.coes [] (pe.coes.map (fun e => (e.1, e.2.1))) with
  | .ok provs => ({ pe with coe_prov := provs }, none)
  | .error e => (pe, some e)

/-- The `todo` list built by `ParserEnv::add_coe_raw` from the pre-call
graph: compositions of prior edges into `s1` with the new leaf `c1`, then
the leaf edge itself, then compositions of `c1` with prior edges out of
`s2`. -/
def coeTodo (coes : List (SortID × SortID × Coe)) (s1 s2 : SortID) (c1 : Coe) :
    List (SortID × SortID × Coe) :=
  (coes.filterMap (fun e =>
    if e.2.1 = s1 then some (e.1, s2, Coe.trans e.2.2 s1 c1) else none))
  ++ [(s1, s2, c1)]
  ++ (coes.filterMap (fun e =>
    if e.1 = s2 then some (s1, e.2.1, Coe.trans c1 s2 e.2.2) else none))

/-- Rust: `ParserEnv::add_coe_raw`: build the todo list from the pre-call
graph, then insert each entry in order, stopping at the first error. -/
def ParserEnv.add_coe_raw (pe : ParserEnv) (sp : Span) (sorts : List SortData)
    (s1 s2 : SortID) (fsp : FileSpan) (t : TermID) : ParserEnv × Option ElabError :=
  ({ pe with coes := (addCoeList sp sorts pe.coes (coeTodo pe.coes s1 s2 (.one fsp t))).1 },
   (addCoeList sp sorts pe.coes (coeTodo pe.coes s1 s2 (.one fsp t))).2)

/-- Rust: `ParserEnv::add_coe`: raw insertion followed by a refresh of the
provable projection. -/
def ParserEnv.add_coe (pe : ParserEnv) (sp : Span) (sorts : List SortData)
    (s1 s2 : SortID) (fsp : FileSpan) (t : TermID) : ParserEnv × Option ElabError :=
  match pe.add_coe_raw sp sorts s1 s2 fsp t with
  | (pe2, some e) => (pe2, some e)
  | (pe2, none) => pe2.update_provs sp sorts

/-- Rust: `struct Remapper { sort, term, thm }`: identifier renumbering maps
built during a merge. -/
structure Remapper where
  sort : List (SortID × SortID)
  term : List (TermID × TermID)
  thm : List (ThmID × ThmID)
deriving DecidableEq, Repr

/-- The empty remapper, `Remapper::default()`. -/
def Remapper.empty : Remapper := ⟨[], [], []⟩

/-- Rust: `impl Remap<Remapper> for SortID` (lookup, identity when absent). -/
def SortID.remap (s : SortID) (r : Remapper) : SortID := (alookup r.sort s).getD s

/-- Rust: `impl Remap<Remapper> for TermID`. -/
def TermID.remap (t : TermID) (r : Remapper) : TermID := (alookup r.term t).getD t

/-- Rust: `impl Remap<Remapper> for ThmID`. -/
def ThmID.remap (t : ThmID) (r : Remapper) : ThmID := (alookup r.thm t).getD t

/-- Rust: `impl Remap<Remapper> for Type`. -/
def Ty.remap : Ty → Remapper → Ty
  | .bound s, r => .bound (s.remap r)
  | .reg s deps, r => .reg (s.remap r) deps

mutual

/-- Rust: `impl Remap<Remapper> for ExprNode` (the `Vec<ExprNode>` instance
inlined as a mutual list recursion). -/
def ExprNode.remap : ExprNode → Remapper → ExprNode
  | .ref i, _ => .ref i
  | .dummy i s, r => .dummy i (s.remap r)
  | .app t es, r => .app (t.remap r) (exprListRemap es r)

/-- Rust: `impl Remap<Remapper> for Vec<ExprNode>`. -/
def exprListRemap : List ExprNode → Remapper → List ExprNode
  | [], _ => []
  | e :: es, r => e.remap r :: exprListRemap es r

end

/-- Rust: `impl Remap<Remapper> for Expr`. -/
def Expr.remap (e : Expr) (r : Remapper) : Expr :=
  ⟨exprListRemap e.heap r, e.head.remap r⟩

/-- Rust: `impl Remap<Remapper> for (String, Type)` via the pair and `String`
instances. -/
def argsRemap (args : List (String × Ty)) (r : Remapper) : List (String × Ty) :=
  args.map (fun a => (a.1, a.2.remap r))

/-- Rust: `impl Remap<Remapper> for Term`. -/
def Term.remap (t : Term) (r : Remapper) : Term :=
  { t with args := argsRemap t.args r, ret := t.ret.remap r,
           val := t.val.map (·.remap r) }

mutual

/-- Rust: `impl Remap<Remapper> for ProofNode`. -/
def ProofNode.remap : ProofNode → Remapper → ProofNode
  | .ref i, _ => .ref i
  | .term t args, r => .term (t.remap r) (proofListRemap args r)
  | .thm t args hyps tgt, r =>
    .thm (t.remap r) (proofListRemap args r) (proofListRemap hyps r) (tgt.remap r)
  | .conv tgt proof, r => .conv (tgt.remap r) (proof.remap r)

/-- Rust: `impl Remap<Remapper> for Vec<ProofNode>`. -/
def proofListRemap : List ProofNode → Remapper → List ProofNode
  | [], _ => []
  | e :: es, r => e.remap r :: proofListRemap es r

end

/-- Rust: `impl Remap<Remapper> for Proof`. -/
def Proof.remap (p : Proof) (r : Remapper) : Proof :=
  ⟨proofListRemap p.heap r, p.head.remap r⟩

/-- Rust: `impl Remap<Remapper> for Thm`. -/
def Thm.remap (t : Thm) (r : Remapper) : Thm :=
  { t with args := argsRemap t.args r, heap := exprListRemap t.heap r,
           hyps := exprListRemap t.hyps r, ret := t.ret.remap r,
           proof := t.proof.map (·.remap r) }

/-- Rust: `impl Remap<Remapper> for NotaInfo` (note the literals are cloned,
not remapped). -/
def NotaInfo.remap (n : NotaInfo) (r : Remapper) : NotaInfo :=
  { n with term := n.term.remap r }

/-- Rust: `impl Remap<Remapper> for Coe`. -/
def Coe.remap : Coe → Remapper → Coe
  | .one sp t, r => .one sp (t.remap r)
  | .trans c1 s c2, r => .trans (c1.remap r) (s.remap r) (c2.remap r)

/-- Rust: `struct RedeclarationError { msg, othermsg, other }`. -/
structure RedeclarationError where
  msg : String
  othermsg : String
  other : FileSpan
deriving DecidableEq, Repr

/-- Rust: `enum AddItemError<A> { Redeclaration(A, RedeclarationError), Overflow }`. -/
inductive AddItemError (α : Type) where
  | redeclaration (a : α) (e : RedeclarationError)
  | overflow
deriving Repr

/-- Rust: `Environment::add_sort`.  The outer `Option` is `none` exactly when
the Rust code would panic (an id in `sort_keys` out of range of the sort
table); the `u8` id conversion fails (`Overflow`) when 256 sorts exist. -/
def Environment.add_sort (env : Environment) (s : String) (fsp : FileSpan) (sd : Modifiers) :
    Option (Except (AddItemError SortID) SortID × Environment) :=
  if 256 ≤ env.sorts.length then some (.error .overflow, env)
  else
    match alookup env.sort_keys s with
    | some old_id =>
      match env.sorts[old_id.n]? with
      | none => none
      | some sort =>
        if sd = sort.mods then some (.ok old_id, env)
        else some (.error (.redeclaration old_id
          ⟨"sort " ++ s ++ " redeclared", "previously declared here", sort.span⟩), env)
    | none =>
      some (.ok ⟨env.sorts.length⟩,
        { env with
          sort_keys := env.sort_keys ++ [(s, ⟨env.sorts.length⟩)],
          sorts := env.sorts ++ [⟨s, fsp, sd⟩],
          stmts := env.stmts ++ [.sort s] })

/-- Rust: `Environment::add_term`.  The record builder is a thunk, invoked
only on first insertion; on a name collision with an equal span the existing
id is returned, otherwise a `Redeclaration` error carries the old id for a
term/term conflict and no id for a term/theorem conflict.  The `u32` id
conversion fails (`Overflow`) at 2^32 terms; `none` models the panic of an
out-of-range id in `decl_keys`. -/
def Environment.add_term (env : Environment) (s : String) (new : FileSpan)
    (t : Unit → Term) :
    Option (Except (AddItemError (Option TermID)) TermID × Environment) :=
  if 2 ^ 32 ≤ env.terms.length then some (.error .overflow, env)
  else
    match alookup env.decl_keys s with
    | some (.term old_id) =>
      match env.terms[old_id.n]? with
      | none => none
      | some old =>
        if old.span = new then some (.ok old_id, env)
        else some (.error (.redeclaration (some old_id)
          ⟨"term " ++ s ++ " redeclared", "previously declared here", old.span⟩), env)
    | some (.thm old_id) =>
      match env.thms[old_id.n]? with
      | none => none
      | some old =>
        some (.error (.redeclaration none
          ⟨"term " ++ s ++ " redeclared", "previously declared here", old.span⟩), env)
    | none =>
      some (.ok ⟨env.terms.length⟩,
        { env with
          decl_keys := env.decl_keys ++ [(s, .term ⟨env.terms.length⟩)],
          terms := env.terms ++ [t ()],
          stmts := env.stmts ++ [.decl s] })

/-- Rust: `Environment::add_thm`, symmetric to `add_term`. -/
def Environment.add_thm (env : Environment) (s : String) (new : FileSpan)
    (t : Unit → Thm) :
    Option (Except (AddItemError (Option ThmID)) ThmID × Environment) :=
  if 2 ^ 32 ≤ env.thms.length then some (.error .overflow, env)
  else
    match alookup env.decl_keys s with
    | some (.thm old_id) =>
      match env.thms[old_id.n]? with
      | none => none
      | some old =>
        if old.span = new then some (.ok old_id, env)
        else some (.error (.redeclaration (some old_id)
          ⟨"theorem " ++ s ++ " redeclared", "previously declared here", old.span⟩), env)
    | some (.term old_id) =>
      match env.terms[old_id.n]? with
      | none => none
      | some old =>
        some (.error (.redeclaration none
          ⟨"theorem " ++ s ++ " redeclared", "previously declared here", old.span⟩), env)
    | none =>
      some (.ok ⟨env.thms.length⟩,
        { env with
          decl_keys := env.decl_keys ++ [(s, .thm ⟨env.thms.length⟩)],
          thms := env.thms ++ [t ()],
          stmts := env.stmts ++ [.decl s] })

/-- The constants loop of `ParserEnv::merge`: replay the other table through
`add_const`, accumulating conflict diagnostics. -/
def mergeConsts (sp : Span) :
    ParserEnv → List ElabError → List (String × (FileSpan × Prec)) →
    ParserEnv × List ElabError
  | pe, errors, [] => (pe, errors)
  | pe, errors, (tk, (fsp, p)) :: rest =>
    match pe.add_const tk fsp p with
    | .ok pe2 => mergeConsts sp pe2 errors rest
    | .error r =>
      mergeConsts sp pe (errors ++ [ElabError.with_info sp
        ("constant " ++ tk ++ " declared with two precedences")
        [(r.decl1, "declared here"), (r.decl2, "declared here")]]) rest

/-- The associativity loop of `ParserEnv::merge`. -/
def mergePrecAssoc (sp : Span) :
    ParserEnv → List ElabError → List (Nat × (FileSpan × Bool)) →
    ParserEnv × List ElabError
  | pe, errors, [] => (pe, errors)
  | pe, errors, (p, (fsp, r)) :: rest =>
    match pe.add_prec_assoc p fsp r with
    | .ok pe2 => mergePrecAssoc sp pe2 errors rest
    | .error e =>
      mergePrecAssoc sp pe (errors ++ [ElabError.with_info sp
        ("precedence level " ++ toString p ++ " has incompatible associativity")
        [(e.decl1, "left assoc here"), (e.decl2, "right assoc here")]]) rest

/-- The prefix/infix loops of `ParserEnv::merge`, shared over the table being
extended (each notation is remapped through the merge remapper first). -/
def mergeNotaTable (sp : Span) (r : Remapper) :
    List (String × NotaInfo) → List ElabError → List (String × NotaInfo) →
    List (String × NotaInfo) × List ElabError
  | m, errors, [] => (m, errors)
  | m, errors, (tk, i) :: rest =>
    match ParserEnv.add_nota_info m tk (i.remap r) with
    | .ok m2 => mergeNotaTable sp r m2 errors rest
    | .error e =>
      mergeNotaTable sp r m (errors ++ [ElabError.with_info sp
        ("constant " ++ tk ++ " declared twice")
        [(e.decl1, "declared here"), (e.decl2, "declared here")]]) rest

/-- The coercion loop of `ParserEnv::merge`: replay each atomic (`Coe::One`)
edge of the other graph through `add_coe_raw` with the remapped term id;
transitive (`Coe::Trans`) entries are skipped. -/
def mergeCoes (sp : Span) (sorts : List SortData) (r : Remapper) :
    ParserEnv → List ElabError → List (SortID × SortID × Coe) →
    ParserEnv × List ElabError
  | pe, errors, [] => (pe, errors)
  | pe, errors, (s1, s2, c) :: rest =>
    match c with
    | .one fsp t =>
      match pe.add_coe_raw sp sorts s1 s2 fsp (t.remap r) with
      | (pe2, none) => mergeCoes sp sorts r pe2 errors rest
      | (pe2, some e) => mergeCoes sp sorts r pe2 (errors ++ [e]) rest
    | .trans _ _ _ => mergeCoes sp sorts r pe errors rest

/-- Stage of `ParserEnv::merge`: the constants loop over the running
state. -/
def pePipe1 (sp : Span) (other : ParserEnv) (st : ParserEnv × List ElabError) :
    ParserEnv × List ElabError :=
  mergeConsts sp st.1 st.2 other.consts

/-- Stage of `ParserEnv::merge`: the associativity loop. -/
def pePipe2 (sp : Span) (other : ParserEnv) (st : ParserEnv × List ElabError) :
    ParserEnv × List ElabError :=
  mergePrecAssoc sp st.1 st.2 other.prec_assoc

/-- Stage of `ParserEnv::merge`: the prefix-table loop. -/
def pePipe3 (sp : Span) (r : Remapper) (other : ParserEnv)
    (st : ParserEnv × List ElabError) : ParserEnv × List ElabError :=
  ({ st.1 with prefixes := (mergeNotaTable sp r st.1.prefixes st.2 other.prefixes).1 },
   (mergeNotaTable sp r st.1.prefixes st.2 other.prefixes).2)

/-- Stage of `ParserEnv::merge`: the infix-table loop. -/
def pePipe4 (sp : Span) (r : Remapper) (other : ParserEnv)
    (st : ParserEnv × List ElabError) : ParserEnv × List ElabError :=
  ({ st.1 with infixes := (mergeNotaTable sp r st.1.infixes st.2 other.infixes).1 },
   (mergeNotaTable sp r st.1.infixes st.2 other.infixes).2)

/-- Stage of `ParserEnv::merge`: the coercion-replay loop. -/
def pePipe5 (sp : Span) (sorts : List SortData) (r : Remapper) (other : ParserEnv)
    (st : ParserEnv × List ElabError) : ParserEnv × List ElabError :=
  mergeCoes sp sorts r st.1 st.2 other.coes

/-- Stage of `ParserEnv::merge`: the final provable-projection refresh,
whose error (if any) is appended to the diagnostics. -/
def pePipe6 (sp : Span) (sorts : List SortData) (st : ParserEnv × List ElabError) :
    ParserEnv × List ElabError :=
  match st.1.update_provs sp sorts with
  | (pe, none) => (pe, st.2)
  | (pe, some e) => (pe, st.2 ++ [e])

/-- Rust: `ParserEnv::merge`: union delimiters, replay constants,
associativities, prefix and infix tables and atomic coercions, then refresh
the provable projection once, accumulating all diagnostics.  Written as the
composition of the loop stages above, in the order the Rust method runs
them. -/
def ParserEnv.merge (pe other : ParserEnv) (r : Remapper) (sp : Span)
    (sorts : List SortData) (errors : List ElabError) : ParserEnv × List ElabError :=
  pePipe6 sp sorts (pePipe5 sp sorts r other (pePipe4 sp r other (pePipe3 sp r other
    (pePipe2 sp other (pePipe1 sp other
      ({ pe with
         delims_l := pe.delims_l.merge other.delims_l,
         delims_r := pe.delims_r.merge other.delims_r }, errors))))))

/-- The statement-replay loop of `Environment::merge`.  The outer `Option`
is `none` where the Rust code would panic (a stale key in the other
environment) or return a fatal error (`Overflow`, or a cross-kind
redeclaration, whose `?` aborts the merge). -/
def mergeStmts (other : Environment) (sp : Span) :
    Environment → Remapper → List ElabError → List StmtTrace →
    Option (Environment × Remapper × List ElabError)
  | env, r, errors, [] => some (env, r, errors)
  | env, r, errors, .sort s :: rest =>
    match alookup other.sort_keys s with
    | none => none
    | some i =>
      match other.sorts[i.n]? with
      | none => none
      | some sort =>
        match env.add_sort s sort.span sort.mods with
        | none => none
        | some (.ok id, env2) =>
          mergeStmts other sp env2
            (if i = id then r else { r with sort := r.sort ++ [(i, id)] }) errors rest
        | some (.error (.redeclaration id re), env2) =>
          mergeStmts other sp env2
            (if i = id then r else { r with sort := r.sort ++ [(i, id)] })
            (errors ++ [ElabError.with_info sp re.msg
              [(sort.span, re.othermsg), (re.other, re.othermsg)]]) rest
        | some (.error .overflow, _) => none
  | env, r, errors, .decl s :: rest =>
    match alookup other.decl_keys s with
    | none => none
    | some (.term i) =>
      match other.terms[i.n]? with
      | none => none
      | some o =>
        match env.add_term s o.span (fun _ => o.remap r) with
        | none => none
        | some (.ok id, env2) =>
          mergeStmts other sp env2
            (if i = id then r else { r with term := r.term ++ [(i, id)] }) errors rest
        | some (.error (.redeclaration (some id) re), env2) =>
          mergeStmts other sp env2
            (if i = id then r else { r with term := r.term ++ [(i, id)] })
            (errors ++ [ElabError.with_info sp re.msg
              [(o.span, re.othermsg), (re.other, re.othermsg)]]) rest
        | some (.error (.redeclaration none _), _) => none
        | some (.error .overflow, _) => none
    | some (.thm i) =>
      match other.thms[i.n]? with
      | none => none
      | some o =>
        match env.add_thm s o.span (fun _ => o.remap r) with
        | none => none
        | some (.ok id, env2) =>
          mergeStmts other sp env2
            (if i = id then r else { r with thm := r.thm ++ [(i, id)] }) errors rest
        | some (.error (.redeclaration (some id) re), env2) =>
          mergeStmts other sp env2
            (if i = id then r else { r with thm := r.thm ++ [(i, id)] })
            (errors ++ [ElabError.with_info sp re.msg
              [(o.span, re.othermsg), (re.other, re.othermsg)]]) rest
        | some (.error (.redeclaration none _), _) => none
        | some (.error .overflow, _) => none

/-- Rust: `Environment::merge` (without the scripting-atom tail, see
`Environment`): the statement replay followed by the parser-environment
merge.  `none` stands for a panic or a fatal (short-circuiting) error;
otherwise the merged primary, the remapper and the diagnostics are
returned.  `mergeFinish` is the post-replay half. -/
def mergeFinish (other : Environment) (sp : Span)
    (st : Environment × Remapper × List ElabError) :
    Environment × Remapper × List ElabError :=
  ({ st.1 with pe := (ParserEnv.merge st.1.pe other.pe st.2.1 sp st.1.sorts st.2.2).1 },
   st.2.1,
   (ParserEnv.merge st.1.pe other.pe st.2.1 sp st.1.sorts st.2.2).2)

/-- Rust: `Environment::merge` continued: after the statement replay, merge
the parser environments over the updated sort table. -/
def Environment.mergeRes (env other : Environment) (sp : Span)
    (errors : List ElabError) : Option (Environment × Remapper × List ElabError) :=
  if env.stmts.isEmpty then some (other, Remapper.empty, errors)
  else
    match mergeStmts other sp env Remapper.empty errors other.stmts with
    | none => none
    | some st => some (mergeFinish other sp st)

/-! The MMB exporter (`export_mmb.rs`).  The position-tracked writer is
purified: each emission step produces the list of bytes it appends, and
`Exporter::run` concatenates them; `pos` is always the number of bytes
written so far, so it is the length of the output prefix.  Bytes are `Nat`
values below 256 by construction. -/

/-- Little-endian bytes of a 16-bit value (`write_u16::<LE>`). -/
def le16 (n : Nat) : List Nat := [n % 256, n / 256 % 256]

/-- Little-endian bytes of a 32-bit value (`write_u32::<LE>`). -/
def le32 (n : Nat) : List Nat :=
  [n % 256, n / 256 % 256, n / 2 ^ 16 % 256, n / 2 ^ 24 % 256]

/-- Little-endian bytes of a 64-bit value (`write_u64::<LE>`). -/
def le64 (n : Nat) : List Nat :=
  [n % 256, n / 256 % 256, n / 2 ^ 16 % 256, n / 2 ^ 24 % 256,
   n / 2 ^ 32 % 256, n / 2 ^ 40 % 256, n / 2 ^ 48 % 256, n / 2 ^ 56 % 256]

/-- A run of zero (placeholder) bytes. -/
def zeros (n : Nat) : List Nat := List.replicate n 0

/-- Rust: `DATA_8`. -/
def DATA_8 : Nat := 0x40

/-- Rust: `DATA_16`. -/
def DATA_16 : Nat := 0x80

/-- Rust: `DATA_32`. -/
def DATA_32 : Nat := 0xC0

/-- Rust: `STMT_SORT`. -/
def STMT_SORT : Nat := 0x04

/-- Rust: `STMT_AXIOM`. -/
def STMT_AXIOM : Nat := 0x02

/-- Rust: `STMT_TERM` (shared with `STMT_DEF`). -/
def STMT_TERM : Nat := 0x05

/-- Rust: `STMT_DEF`. -/
def STMT_DEF : Nat := 0x05

/-- Rust: `STMT_THM`. -/
def STMT_THM : Nat := 0x06

/-- Rust: `STMT_LOCAL`. -/
def STMT_LOCAL : Nat := 0x08

/-- Rust: `UNIFY_TERM`. -/
def UNIFY_TERM : Nat := 0x30

/-- Rust: `UNIFY_TERM_SAVE`. -/
def UNIFY_TERM_SAVE : Nat := 0x31

/-- Rust: `UNIFY_REF`. -/
def UNIFY_REF : Nat := 0x32

/-- Rust: `UNIFY_DUMMY`. -/
def UNIFY_DUMMY : Nat := 0x33

/-- Rust: `UNIFY_HYP`. -/
def UNIFY_HYP : Nat := 0x36

/-- Rust: `enum Value { U32(u32), U64(u64), Box(Box<[u8]>) }`, the committed
value of a fixup. -/
inductive Value where
  | u32 (n : Nat)
  | u64 (n : Nat)
  | box (bs : List Nat)
deriving DecidableEq, Repr

/-- The bytes a committed fixup value occupies when patched into the file
(`U32` and `U64` in little-endian order, a box verbatim). -/
def Value.serialize : Value → List Nat
  | .u32 n => le32 n
  | .u64 n => le64 n
  | .box bs => bs

/-- Rust: `write_cmd`: emit the opcode byte with the smallest size-class tag
that fits `data` (zero data has no operand). -/
def write_cmd (cmd : Nat) (data : Nat) : List Nat :=
  if data = 0 then [cmd]
  else if data < 256 then [cmd ||| DATA_8, data]
  else if data < 2 ^ 16 then (cmd ||| DATA_16) :: le16 data
  else (cmd ||| DATA_32) :: le32 data

/-- Rust: `write_cmd_bytes`: emit the command with a length field counting
the whole record, then the payload; `none` for a payload at or above the
`u32` limit (the `unwrap` would panic). -/
def write_cmd_bytes (cmd : Nat) (vec : List Nat) : Option (List Nat) :=
  if vec.length + 2 < 256 then some ((cmd ||| DATA_8) :: (vec.length + 2) :: vec)
  else if vec.length + 3 < 2 ^ 16 then
    some ((cmd ||| DATA_16) :: le16 (vec.length + 3) ++ vec)
  else if vec.length + 5 < 2 ^ 32 then
    some ((cmd ||| DATA_32) :: le32 (vec.length + 5) ++ vec)
  else none

/-- Rust: `enum UnifyCmd`. -/
inductive UnifyCmd where
  | term (t : TermID)
  | termSave (t : TermID)
  | ref (n : Nat)
  | dummy (s : SortID)
  | hyp
deriving DecidableEq, Repr

/-- Rust: `UnifyCmd::write_to` (as the bytes it appends). -/
def UnifyCmd.write_to : UnifyCmd → List Nat
  | .term t => write_cmd UNIFY_TERM t.n
  | .termSave t => write_cmd UNIFY_TERM_SAVE t.n
  | .ref n => write_cmd UNIFY_REF n
  | .dummy s => write_cmd UNIFY_DUMMY s.n
  | .hyp => [UNIFY_HYP]

/-- Rust: `enum ProofCmd` (only the constructors the reachable code emits
are listed; the conversion opcodes sit behind `unimplemented!` branches). -/
inductive ProofCmd where
  | term (t : TermID)
  | termSave (t : TermID)
  | ref (n : Nat)
  | dummy (s : SortID)
  | hyp
deriving DecidableEq, Repr

/-- Rust: `ProofCmd::write_to` for the emitted constructors. -/
def ProofCmd.write_to : ProofCmd → List Nat
  | .term t => write_cmd 0x10 t.n
  | .termSave t => write_cmd 0x11 t.n
  | .ref n => write_cmd 0x12 n
  | .dummy s => write_cmd 0x13 s.n
  | .hyp => [0x16]

/-- Rust: `struct Reorder { map: Box<[Option<u32>]>, idx: u32 }`. -/
structure Reorder where
  map : List (Option Nat)
  idx : Nat
deriving DecidableEq, Repr

/-- Rust: `Reorder::new(nargs, len)`: parameters preassigned to their own
indices, `idx` starting at `nargs` (callers guard `nargs ≤ len`; Rust would
panic otherwise). -/
def Reorder.new (nargs len : Nat) : Reorder :=
  ⟨(List.range len).map (fun i => if i < nargs then some i else none), nargs⟩

/-- The `commit!` macro of `write_expr_unify`: assign back-reference `n` to
every pending saved heap slot. -/
def commitSaves (r : Reorder) (save : List Nat) (n : Nat) : Reorder :=
  { r with map := save.foldl (fun m i => m.set i (some n)) r.map }

/-- Rust: `Exporter::write_expr_unify`, as a task machine so that the
recursion is structural in a fuel counter and evaluates in the kernel.  The
task list is the stack of nodes still to walk (an `App` prepends its
children, a pending `Ref` prepends the heap entry it dereferences), exactly
the call order of the recursive original.  Returns the emitted bytes, the
updated reorder state, the pending save list, and the unspent fuel; `none`
is fuel exhaustion (which only a heap the Rust code would loop on reaches,
given enough fuel) or an out-of-range heap reference (a Rust panic). -/
def unifyRun : Nat → List ExprNode → Reorder → List Nat → List ExprNode →
    List Nat → Option (List Nat × Reorder × List Nat × Nat)
  | 0, _, _, _, _, _ => none
  | f + 1, _, r, save, [], acc => some (acc, r, save, f + 1)
  | f + 1, heap, r, save, e :: ts, acc =>
    match e with
    | .ref i =>
      match r.map[i]? with
      | none => none
      | some (some n) => unifyRun f heap (commitSaves r save n) [] ts acc
      | some none =>
        match heap[i]? with
        | none => none
        | some e2 => unifyRun f heap r (save ++ [i]) (e2 :: ts) acc
    | .dummy _ s =>
      unifyRun f heap { commitSaves r save r.idx with idx := r.idx + 1 } [] ts
        (acc ++ (UnifyCmd.dummy s).write_to)
    | .app t es =>
      if save.isEmpty then
        unifyRun f heap r [] (es ++ ts) (acc ++ (UnifyCmd.term t).write_to)
      else
        unifyRun f heap { commitSaves r save r.idx with idx := r.idx + 1 } []
          (es ++ ts) (acc ++ (UnifyCmd.termSave t).write_to)

mutual

/-- Node count of an expression (computable, used only for fuel bounds). -/
def ExprNode.size : ExprNode → Nat
  | .ref _ => 1
  | .dummy _ _ => 1
  | .app _ es => 1 + exprListSize es

/-- Total node count of a list of expressions. -/
def exprListSize : List ExprNode → Nat
  | [] => 0
  | e :: es => e.size + exprListSize es

end

/-- A generous fuel bound for walking `head` over `heap`: every machine step
either consumes a node of the original expression or dereferences a heap
slot, and each slot is dereferenced at most once on the heaps the Rust code
terminates on. -/
def emitFuel (heap : List ExprNode) (head : ExprNode) : Nat :=
  head.size + exprListSize heap + heap.length + 1

/-- Task alphabet for the proof/expression stream machine: walk a node
(with its save flag), emit the deferred `Term`/`TermSave` opcode of an
application after its children, or record the back-reference produced for a
dereferenced heap slot. -/
inductive PTask where
  | node (e : ExprNode) (save : Bool)
  | emitTerm (t : TermID) (save : Bool)
  | setMap (i : Nat)
deriving Repr

/-- Rust: `write_expr_proof`, as a task machine (see `unifyRun`).  The
`last` component carries the back-reference index returned by the most
recently finished node, which `setMap` stores for the slot it tags. -/
def proofRun : Nat → List ExprNode → Reorder → Nat → List PTask → List Nat →
    Option (List Nat × Reorder × Nat × Nat)
  | 0, _, _, _, _, _ => none
  | f + 1, _, r, last, [], acc => some (acc, r, last, f + 1)
  | f + 1, heap, r, last, t :: ts, acc =>
    match t with
    | .node e sv =>
      match e with
      | .ref i =>
        match r.map[i]? with
        | none => none
        | some (some n) =>
          proofRun f heap r n ts (acc ++ (ProofCmd.ref n).write_to)
        | some none =>
          match heap[i]? with
          | none => none
          | some e2 => proofRun f heap r last (.node e2 true :: .setMap i :: ts) acc
      | .dummy _ s =>
        proofRun f heap { r with idx := r.idx + 1 } r.idx ts
          (acc ++ (ProofCmd.dummy s).write_to)
      | .app t es =>
        proofRun f heap r last
          (es.map (fun e => PTask.node e false) ++ PTask.emitTerm t sv :: ts) acc
    | .emitTerm t sv =>
      if sv then
        proofRun f heap { r with idx := r.idx + 1 } r.idx ts
          (acc ++ (ProofCmd.termSave t).write_to)
      else proofRun f heap r 0 ts (acc ++ (ProofCmd.term t).write_to)
    | .setMap i =>
      proofRun f heap { r with map := r.map.set i (some last) } last ts acc

/-- Rust: `Exporter::align_to(8)`: the number of zero bytes that pad the
position to the next multiple of 8, computed as the code does with the
position truncated to `u8` (`8u8.wrapping_sub(pos as u8) & 7`). -/
def alignPad (len : Nat) : Nat := (8 + 256 - len % 256) % 256 % 8

/-- Rust: `Exporter::write_sort_deps`: the packed 64-bit binder word (bit 63
bound flag, bits 56-62 sort id, bits 0-55 dependency mask). -/
def write_sort_deps (bound : Bool) (s : SortID) (deps : Nat) : List Nat :=
  le64 ((if bound then 1 else 0) <<< 63 ||| (s.n % 256) <<< 56 ||| deps)

/-- Rust: `Exporter::write_binders`: one packed word per argument; a bound
argument takes the next power-of-two dependency bit, which must stay below
2^55 (the panic is `none`). -/
def writeBindersAux : Nat → List (String × Ty) → Option (List Nat)
  | _, [] => some []
  | bv, (_, .bound s) :: rest =>
    if 2 ^ 55 ≤ bv then none
    else
      match writeBindersAux (bv * 2) rest with
      | none => none
      | some tail => some (write_sort_deps true s bv ++ tail)
  | bv, (_, .reg s deps) :: rest =>
    match writeBindersAux bv rest with
    | none => none
    | some tail => some (write_sort_deps false s deps ++ tail)

/-- Rust: `Exporter::write_binders` (entry point, `bv` starts at 1). -/
def write_binders (args : List (String × Ty)) : Option (List Nat) :=
  writeBindersAux 1 args

/-- Rust: `Exporter::write_term_header`: `u16` argument count, sort byte
with bit 7 marking a definition, a reserved byte, and the `u32` body
offset. -/
def write_term_header (nargs : Nat) (s : SortID) (hasdef : Bool) (pterm : Nat) : List Nat :=
  le16 nargs ++ [(s.n % 256) ||| (if hasdef then 0x80 else 0), 0] ++ le32 pterm

/-- Rust: `Exporter::write_thm_header`: `u16` argument count, two reserved
bytes, and the `u32` body offset. -/
def write_thm_header (nargs : Nat) (pthm : Nat) : List Nat :=
  le16 nargs ++ [0, 0] ++ le32 pthm

/-- The optional unify tail of a term body: for a definition, the unify
stream of its value over a fresh reorder followed by the `0x00` terminator
(retaining the reorder); nothing for an opaque term. -/
def termValUnify (nargs : Nat) : Option Expr → Option (List Nat × Option Reorder)
  | some v =>
    if v.heap.length < nargs then none
    else
      match unifyRun (emitFuel v.heap v.head) v.heap
        (Reorder.new nargs v.heap.length) [] [v.head] [] with
      | none => none
      | some (δ, r1, _, _) => some (δ ++ [0], some r1)
  | none => some (([] : List Nat), (none : Option Reorder))

/-- The per-term body loop of `Exporter::run` from its current position `L`:
for each term, align to 8, record the header chunk with the aligned
position, then emit binders, the return-type word and (for definitions) the
unify stream of the value followed by the `0x00` terminator.  Returns the
emitted bytes, the 8-byte header chunks, and the retained reorders. -/
def termBodies : Nat → List Term → Option (List Nat × List (List Nat) × List (Option Reorder))
  | _, [] => some ([], [], [])
  | L, t :: rest =>
    if 2 ^ 16 ≤ t.args.length then none
    else if 2 ^ 32 ≤ L + alignPad L then none
    else
      match write_binders t.args with
      | none => none
      | some binders =>
        match termValUnify t.args.length t.val with
        | none => none
        | some (bodyTail, reord) =>
          match termBodies (L + (zeros (alignPad L) ++ binders
            ++ write_sort_deps false t.ret.sort t.ret.deps ++ bodyTail).length) rest with
          | none => none
          | some (rest2, chunks, reords) =>
            some ((zeros (alignPad L) ++ binders
                ++ write_sort_deps false t.ret.sort t.ret.deps ++ bodyTail) ++ rest2,
              write_term_header t.args.length t.ret.sort t.val.isSome (L + alignPad L)
                :: chunks,
              reord :: reords)

/-- The term section of `Exporter::run` starting at position `L0`: align to
8 (the aligned position is the committed `p_terms` value, a `u32`), reserve
the zeroed 8-byte-per-term header table (`fixup_large`), then the bodies.
Returns the section bytes, the aligned offset, the committed header box and
the reorders. -/
def termSection (env : Environment) (L0 : Nat) :
    Option (List Nat × Nat × List Nat × List (Option Reorder)) :=
  if 2 ^ 32 ≤ L0 + alignPad L0 then none
  else
    match termBodies (L0 + alignPad L0 + 8 * env.terms.length) env.terms with
    | none => none
    | some (bodies, chunks, reords) =>
      some (zeros (alignPad L0) ++ zeros (8 * env.terms.length) ++ bodies,
        L0 + alignPad L0, chunks.flatten, reords)

/-- Fuel bound for a theorem header's unify walk (return expression plus all
hypotheses over the shared heap). -/
def thmUnifyFuel (heap : List ExprNode) (ret : ExprNode) (hyps : List ExprNode) : Nat :=
  ret.size + exprListSize hyps + exprListSize heap + heap.length + hyps.length + 1

/-- The hypothesis loop of a theorem header: for each hypothesis (the caller
passes them in reverse declaration order) emit `UnifyCmd::Hyp` and then its
unify stream, threading the reorder state, the pending save list and the
fuel. -/
def thmHypsUnify (heap : List ExprNode) :
    Nat → Reorder → List Nat → List ExprNode →
    Option (List Nat × Reorder × List Nat × Nat)
  | f, r, save, [] => some ([], r, save, f)
  | f, r, save, h :: hs =>
    match unifyRun f heap r save [h] [] with
    | none => none
    | some (δ, r1, s1, f1) =>
      match thmHypsUnify heap f1 r1 s1 hs with
      | none => none
      | some (δrest, r2, s2, f2) =>
        some ((UnifyCmd.hyp.write_to ++ δ) ++ δrest, r2, s2, f2)

/-- The post-binder part of a theorem header in `Exporter::run`: a fresh
reorder, the unify stream of the return expression, then `UnifyCmd::Hyp`
plus the unify stream of each hypothesis in reverse declaration order, then
the `0x00` terminator. -/
def writeThmUnifyBody (F : Nat) (heap : List ExprNode) (ret : ExprNode)
    (hyps : List ExprNode) (nargs : Nat) : Option (List Nat × Reorder) :=
  if heap.length < nargs then none
  else
    match unifyRun F heap (Reorder.new nargs heap.length) [] [ret] [] with
    | none => none
    | some (δ0, r1, s1, f1) =>
      match thmHypsUnify heap f1 r1 s1 hyps.reverse with
      | none => none
      | some (δh, r2, _, _) => some (δ0 ++ δh ++ [0], r2)

/-- The per-theorem body loop of `Exporter::run` (compare `termBodies`):
align, record the header chunk, emit binders, then the unify body. -/
def thmBodies : Nat → List Thm → Option (List Nat × List (List Nat) × List Reorder)
  | _, [] => some ([], [], [])
  | L, t :: rest =>
    if 2 ^ 16 ≤ t.args.length then none
    else if 2 ^ 32 ≤ L + alignPad L then none
    else
      match write_binders t.args with
      | none => none
      | some binders =>
        match writeThmUnifyBody (thmUnifyFuel t.heap t.ret t.hyps)
          t.heap t.ret t.hyps t.args.length with
        | none => none
        | some (ubody, r) =>
          match thmBodies (L + (zeros (alignPad L) ++ binders ++ ubody).length) rest with
          | none => none
          | some (rest2, chunks, reords) =>
            some ((zeros (alignPad L) ++ binders ++ ubody) ++ rest2,
              write_thm_header t.args.length (L + alignPad L) :: chunks, r :: reords)

/-- The theorem section of `Exporter::run` (compare `termSection`). -/
def thmSection (env : Environment) (L0 : Nat) :
    Option (List Nat × Nat × List Nat × List Reorder) :=
  if 2 ^ 32 ≤ L0 + alignPad L0 then none
  else
    match thmBodies (L0 + alignPad L0 + 8 * env.thms.length) env.thms with
    | none => none
    | some (bodies, chunks, reords) =>
      some (zeros (alignPad L0) ++ zeros (8 * env.thms.length) ++ bodies,
        L0 + alignPad L0, chunks.flatten, reords)

/-- The hypothesis loop of an axiom statement in `Exporter::run`: the proof
stream of each hypothesis in declaration order, each followed by
`ProofCmd::Hyp`. -/
def axiomHypsProof (heap : List ExprNode) :
    Reorder → List ExprNode → Option (List Nat × Reorder)
  | r, [] => some ([], r)
  | r, h :: hs =>
    match proofRun (emitFuel heap h) heap r 0 [.node h false] [] with
    | none => none
    | some (δ, r1, _, _) =>
      match axiomHypsProof heap r1 hs with
      | none => none
      | some (δrest, r2) => some (δ ++ ProofCmd.hyp.write_to ++ δrest, r2)

/-- The per-statement records of the proof section of `Exporter::run`.  A
sort takes a 2-byte `STMT_SORT` command; an opaque term a 2-byte
`STMT_TERM`; a definition a `STMT_DEF` (OR `STMT_LOCAL` when local) record
whose payload is the proof stream of its value plus a terminator; an axiom
a `STMT_AXIOM` record with hypothesis streams, the target stream and a
terminator.  A theorem carrying a proof is `none`: that branch of the Rust
code destructures fields (`Proof.hyps`, `ProofNode::Hyp`) that this
repository's environment does not declare, and its `write_proof` helper is
`unimplemented!` for theorem application and conversion nodes. -/
def defProofStream (td : Term) (v : Expr) : Option (List Nat) :=
  if v.heap.length < td.args.length then none
  else
    match proofRun (emitFuel v.heap v.head) v.heap
      (Reorder.new td.args.length v.heap.length) 0 [.node v.head false] [] with
    | none => none
    | some (de, _, _, _) =>
      write_cmd_bytes
        (STMT_DEF ||| (if td.vis = Modifiers.LOCAL then STMT_LOCAL else 0))
        (de ++ [0])

/-- The `STMT_AXIOM` record of a proofless theorem: the hypothesis streams
interleaved with `ProofCmd::Hyp`, the target stream, and a terminator. -/
def axiomProofStream (td : Thm) : Option (List Nat) :=
  if td.heap.length < td.args.length then none
  else
    match axiomHypsProof td.heap (Reorder.new td.args.length td.heap.length) td.hyps with
    | none => none
    | some (dh, r1) =>
      match proofRun (emitFuel td.heap td.ret) td.heap r1 0 [.node td.ret false] [] with
      | none => none
      | some (dr, _, _, _) => write_cmd_bytes STMT_AXIOM (dh ++ dr ++ [0])

/-- The statement-stream record of one declaration. -/
def declStmt (env : Environment) : DeclKey → Option (List Nat)
  | .term i =>
    match env.terms[i.n]? with
    | none => none
    | some td =>
      match td.val with
      | none => some (write_cmd STMT_TERM 2)
      | some v => defProofStream td v
  | .thm i =>
    match env.thms[i.n]? with
    | none => none
    | some td =>
      match td.proof with
      | none => axiomProofStream td
      | some _ => none

/-- The proof-section loop over the statement trace. -/
def proofStmts (env : Environment) : List StmtTrace → Option (List Nat)
  | [] => some []
  | .sort _ :: rest =>
    match proofStmts env rest with
    | none => none
    | some tail => some (write_cmd STMT_SORT 2 ++ tail)
  | .decl s :: rest =>
    match alookup env.decl_keys s with
    | none => none
    | some k =>
      match declStmt env k with
      | none => none
      | some d =>
        match proofStmts env rest with
        | none => none
        | some tail => some (d ++ tail)

/-- The output of a completed `Exporter::run`: the bytes written to the sink
in stream order, and the deferred fixup log in commit order. -/
structure RunResult where
  out : List Nat
  fixups : List (Nat × Value)
deriving DecidableEq, Repr

/-- The fixed prefix of the MMB container: magic, version/sort-count word,
table sizes, the four reserved (zero) forward pointers `p_terms`, `p_thms`,
`p_proof`, `p_index`, and one modifier byte per sort.  Its length is
40 + num_sorts. -/
def runHeader (env : Environment) : List Nat :=
  [0x4D, 0x4D, 0x30, 0x42] ++ le32 (1 ||| (env.sorts.length <<< 8))
    ++ le32 env.terms.length ++ le32 env.thms.length
    ++ zeros 4 ++ zeros 4 ++ zeros 8 ++ zeros 8
    ++ env.sorts.map (fun s => s.mods.bits % 256)

/-- Rust: `Exporter::run` (see the section helpers above): magic and header
words with the four reserved forward pointers and the sort-modifier bytes,
the term section, the theorem section, the statement stream, a final
`0x00`, and the deferred fixup log in commit order. -/
def Exporter.run (env : Environment) : Option RunResult :=
  if 128 < env.sorts.length then none
  else if 2 ^ 32 ≤ env.terms.length then none
  else if 2 ^ 32 ≤ env.thms.length then none
  else
    match termSection env (40 + env.sorts.length) with
    | none => none
    | some (dt, toff, tbox, _) =>
      match thmSection env (40 + env.sorts.length + dt.length) with
      | none => none
      | some (dh, hoff, hbox, _) =>
        match proofStmts env env.stmts with
        | none => none
        | some dp =>
          some ⟨runHeader env ++ dt ++ dh ++ dp ++ [0],
            [(16, .u32 toff), (toff, .box tbox), (20, .u32 hoff), (hoff, .box hbox),
             (24, .u64 (40 + env.sorts.length + dt.length + dh.length)), (32, .u64 0)]⟩

/-- Overwrite the bytes of `l` from `off` with `bs` (a `seek` to `off`
followed by a write of `bs`). -/
def writeAt (l : List Nat) (off : Nat) (bs : List Nat) : List Nat :=
  l.take off ++ bs ++ l.drop (off + bs.length)

/-- Modelled from the spec: the fixup-application pass is not part of the
sources (only `Exporter::run` and the `commit` methods that record the
deferred list are); per the spec, after the main stream is written each
recorded fixup is applied to the sink with a single seek to its reserved
offset and a write of its committed value, in insertion order. -/
def applyFixups (out : List Nat) : List (Nat × Value) → List Nat
  | [] => out
  | (off, v) :: fs => applyFixups (writeAt out off v.serialize) fs

/-- The `n` bytes of `l` starting at offset `off`. -/
def readAt (l : List Nat) (off n : Nat) : List Nat := (l.drop off).take n

/-! Concrete instances used by witnesses and counterexamples. -/

/-- A sample file position. -/
def fspA : FileSpan := ⟨"a.mm0", ⟨1, 2⟩⟩

/-- A second, different sample file position. -/
def fspB : FileSpan := ⟨"b.mm0", ⟨3, 4⟩⟩

/-- A sample error span. -/
def sp0 : Span := ⟨0, 0⟩

/-- The default (empty) parser environment. -/
def pe0 : ParserEnv := ⟨⟨zeros 32⟩, ⟨zeros 32⟩, [], [], [], [], [], []⟩

/-- Four plain sorts `a`, `s1`, `s2`, `b` for the coercion scenarios. -/
def sorts4 : List SortData :=
  [⟨"a", fspA, ⟨0⟩⟩, ⟨"s1", fspA, ⟨0⟩⟩, ⟨"s2", fspA, ⟨0⟩⟩, ⟨"b", fspA, ⟨0⟩⟩]

/-- Coercion graph after `add_coe(a, s1)`. -/
def peG1 : ParserEnv := (pe0.add_coe sp0 sorts4 ⟨0⟩ ⟨1⟩ fspA ⟨10⟩).1

/-- Coercion graph after `add_coe(a, s1)` then `add_coe(s2, b)`:
edges `a → s1` and `s2 → b`. -/
def peG2 : ParserEnv := (peG1.add_coe sp0 sorts4 ⟨2⟩ ⟨3⟩ fspA ⟨11⟩).1

/-- Coercion graph after a further successful `add_coe(s1, s2)`: edges
`a → s1`, `s2 → b`, `a → s2`, `s1 → s2`, `s1 → b` — but not the three-hop
composition `a → b`. -/
def peG3 : ParserEnv := (peG2.add_coe sp0 sorts4 ⟨1⟩ ⟨2⟩ fspA ⟨12⟩).1

/-- Three sorts `u`, `p1`, `p2` with `p1` and `p2` provable. -/
def sortsP : List SortData :=
  [⟨"u", fspA, ⟨0⟩⟩, ⟨"p1", fspA, ⟨4⟩⟩, ⟨"p2", fspA, ⟨4⟩⟩]

/-- Coercion graph with the single edge `u → p1` and provable projection
`u ↦ p1`. -/
def peP1 : ParserEnv := (pe0.add_coe sp0 sortsP ⟨0⟩ ⟨1⟩ fspA ⟨20⟩).1

/-- The environment holding the `peG3` coercion graph over `sorts4`. -/
def envGap : Environment := {
  sort_keys := [("a", ⟨0⟩), ("s1", ⟨1⟩), ("s2", ⟨2⟩), ("b", ⟨3⟩)],
  sorts := sorts4,
  pe := peG3,
  decl_keys := [], terms := [], thms := [],
  stmts := [.sort "a", .sort "s1", .sort "s2", .sort "b"] }

/-- An environment with 128 sorts named `s0` .. `s127`. -/
def env128 : Environment := {
  sort_keys := (List.range 128).map (fun i => ("s" ++ toString i, ⟨i⟩)),
  sorts := (List.range 128).map (fun i => ⟨"s" ++ toString i, fspA, ⟨0⟩⟩),
  pe := pe0,
  decl_keys := [], terms := [], thms := [],
  stmts := (List.range 128).map (fun i => .sort ("s" ++ toString i)) }

/-- A parser environment where precedence level 5 is registered
left-associative at `fspA`. -/
def peC6 : ParserEnv := { pe0 with prec_assoc := [(5, (fspA, false))] }

/-- An environment with a single sort named `a` (modifier bits 0). -/
def envC10 : Environment := {
  sort_keys := [("a", ⟨0⟩)],
  sorts := [⟨"a", fspA, ⟨0⟩⟩],
  pe := pe0,
  decl_keys := [], terms := [], thms := [],
  stmts := [.sort "a"] }

/-- A sample opaque term named `f` declared at `fspA`. -/
def termF : Term := ⟨fspA, ⟨0⟩, ⟨0, 0⟩, [], .reg ⟨0⟩ 0, none⟩

/-- A sample axiom named `h` declared at `fspB`. -/
def thmH : Thm := ⟨fspB, ⟨0⟩, ⟨0, 0⟩, [], [], [], .app ⟨0⟩ [], none⟩

/-- An environment with one sort, one term `f` and one axiom `h`, for the
redeclaration scenarios. -/
def envC5 : Environment := {
  sort_keys := [("a", ⟨0⟩)],
  sorts := [⟨"a", fspA, ⟨0⟩⟩],
  pe := pe0,
  decl_keys := [("f", .term ⟨0⟩), ("h", .thm ⟨0⟩)],
  terms := [termF],
  thms := [thmH],
  stmts := [.sort "a", .decl "f", .decl "h"] }

/-- An environment with one sort `a` and one opaque term `f`, small enough
for the exporter to be run in full by evaluation. -/
def envW : Environment := {
  sort_keys := [("a", ⟨0⟩)],
  sorts := [⟨"a", fspA, ⟨0⟩⟩],
  pe := pe0,
  decl_keys := [("f", .term ⟨0⟩)],
  terms := [termF],
  thms := [],
  stmts := [.sort "a", .decl "f"] }

/-- The exporter output on `envW`: the 41-byte header, the 7-byte alignment
gap, the reserved 8-byte term header table at offset 48, the 8-byte
return-type word of `f` at 56, the two statement commands at 64 and the
final terminator, together with the six recorded fixups. -/
def stW : RunResult :=
  ⟨[0x4D, 0x4D, 0x30, 0x42, 1, 1, 0, 0, 1, 0, 0, 0, 0, 0, 0, 0, 0, 0, 0, 0,
    0, 0, 0, 0, 0, 0, 0, 0, 0, 0, 0, 0, 0, 0, 0, 0, 0, 0, 0, 0, 0, 0, 0, 0,
    0, 0, 0, 0, 0, 0, 0, 0, 0, 0, 0, 0, 0, 0, 0, 0, 0, 0, 0, 0, 0x44, 2, 0x45, 2, 0],
   [(16, .u32 48), (48, .box [0, 0, 0, 0, 56, 0, 0, 0]), (20, .u32 64),
    (64, .box []), (24, .u64 64), (32, .u64 0)]⟩

/-- Properties of the coercion edge list: at most one edge per ordered sort
pair. -/
def nodupKeys (coes : List (SortID × SortID × Coe)) : Prop :=
  coes.Pairwise (fun e1 e2 => ¬(e1.1 = e2.1 ∧ e1.2.1 = e2.2.1))

/-- Properties of the coercion edge list: no edge from a sort to itself. -/
def noSelf (coes : List (SortID × SortID × Coe)) : Prop :=
  ∀ e ∈ coes, e.1 ≠ e.2.1

/-- Transitive closure of the coercion edge list: the composition of any
two chained edges is present. -/
def CoesClosed (cs : List (SortID × SortID × Coe)) : Prop :=
  ∀ a b c, hasCoe cs a b = true → hasCoe cs b c = true → hasCoe cs a c = true

/-- Internal consistency of an environment, as established by building it
through the admission API: names recorded in the statement trace resolve
through the key dictionaries to in-range ids, the notation tables are
lookup-consistent (each stored pair is what lookup by its key returns), the
id spaces are not exhausted, the coercion graph has no self-edges, and
`coe_prov` is what the provable-projection refresh computes. -/
structure EnvWF (E : Environment) : Prop where
  sorts_lt : E.sorts.length < 256
  terms_lt : E.terms.length < 2 ^ 32
  thms_lt : E.thms.length < 2 ^ 32
  sort_stmts : ∀ s, StmtTrace.sort s ∈ E.stmts →
    ∃ i, alookup E.sort_keys s = some i ∧ i.n < E.sorts.length
  decl_stmts : ∀ s, StmtTrace.decl s ∈ E.stmts →
    (∃ i, alookup E.decl_keys s = some (.term i) ∧ i.n < E.terms.length) ∨
    (∃ i, alookup E.decl_keys s = some (.thm i) ∧ i.n < E.thms.length)
  consts_self : ∀ p ∈ E.pe.consts, alookup E.pe.consts p.1 = some p.2
  prec_self : ∀ p ∈ E.pe.prec_assoc, alookup E.pe.prec_assoc p.1 = some p.2
  prefixes_self : ∀ p ∈ E.pe.prefixes, alookup E.pe.prefixes p.1 = some p.2
  infixes_self : ∀ p ∈ E.pe.infixes, alookup E.pe.infixes p.1 = some p.2
  coes_noself : ∀ a, hasCoe E.pe.coes a a = false
  prov_self : ∀ sp provs, updateProvsList sp E.sorts E.pe.coes []
    (E.pe.coes.map (fun e => (e.1, e.2.1))) = .ok provs → provs = E.pe.coe_prov

/-- Specification-shaped description of the hypothesis part of a theorem
header: one chunk per hypothesis, each chunk a `UnifyCmd::Hyp` opcode
followed by that hypothesis's unify stream, with the reorder state, the
pending save list and the fuel threaded left to right. -/
inductive UnifyHypChunks (heap : List ExprNode) :
    Nat → Reorder → List Nat → List ExprNode → List (List Nat) →
    Reorder → List Nat → Nat → Prop
  | nil (f : Nat) (r : Reorder) (s : List Nat) : UnifyHypChunks heap f r s [] [] r s f
  | cons {f : Nat} {r : Reorder} {s : List Nat} {h : ExprNode} {hs : List ExprNode}
      {u : List Nat} {r1 : Reorder} {s1 : List Nat} {f1 : Nat}
      {cs : List (List Nat)} {r2 : Reorder} {s2 : List Nat} {f2 : Nat} :
      unifyRun f heap r s [h] [] = some (u, r1, s1, f1) →
      UnifyHypChunks heap f1 r1 s1 hs cs r2 s2 f2 →
      UnifyHypChunks heap f r s (h :: hs) ((UnifyCmd.hyp.write_to ++ u) :: cs) r2 s2 f2

/-! Helper lemmas about byte lists, fixup application, and the embedded
operations. -/

theorem length_zeros (n : Nat) : (zeros n).length = n := List.length_replicate n 0

theorem drop_append_ge {α : Type} (a b : List α) (n : Nat) (h : a.length ≤ n) :
    (a ++ b).drop n = b.drop (n - a.length) := by
  rw [List.drop_append_eq_append_drop]
  simp [List.drop_eq_nil_of_le h]

theorem take_append_le {α : Type} (a b : List α) (n : Nat) (h : n ≤ a.length) :
    (a ++ b).take n = a.take n := by
  rw [List.take_append_eq_append_take]
  simp [Nat.sub_eq_zero_of_le h]

theorem readAt_append_right (a b : List Nat) (off n : Nat) (h : a.length ≤ off) :
    readAt (a ++ b) off n = readAt b (off - a.length) n := by
  simp [readAt, drop_append_ge a b off h]

theorem readAt_append_left (a b : List Nat) (off n : Nat) (h : off + n ≤ a.length) :
    readAt (a ++ b) off n = readAt a off n := by
  unfold readAt
  rw [List.drop_append_eq_append_drop]
  rw [take_append_le]
  simp only [List.length_drop]
  omega

theorem readAt_prefix (a b : List Nat) (n : Nat) : readAt (a ++ b) a.length n = b.take n := by
  simp [readAt, List.drop_left]

theorem readAt_take (l : List Nat) (m off n : Nat) (h : off + n ≤ m) :
    readAt (l.take m) off n = readAt l off n := by
  unfold readAt
  rw [List.drop_take, List.take_take]
  congr 1
  omega

theorem writeAt_length (l bs : List Nat) (off : Nat) (h : off + bs.length ≤ l.length) :
    (writeAt l off bs).length = l.length := by
  simp [writeAt]
  omega

theorem readAt_writeAt_self (l bs : List Nat) (off : Nat) (h : off + bs.length ≤ l.length) :
    readAt (writeAt l off bs) off bs.length = bs := by
  unfold writeAt
  have hlen : (l.take off).length = off := by simp; omega
  rw [List.append_assoc]
  rw [readAt_append_right (l.take off) _ off _ (le_of_eq hlen)]
  rw [hlen, Nat.sub_self]
  simp [readAt, List.take_left]

theorem readAt_writeAt_before (l bs : List Nat) (off2 off1 n1 : Nat)
    (h1 : off1 + n1 ≤ off2) (h2 : off2 ≤ l.length) :
    readAt (writeAt l off2 bs) off1 n1 = readAt l off1 n1 := by
  unfold writeAt
  have hlen : (l.take off2).length = off2 := by simp; omega
  rw [readAt_append_left _ _ off1 n1 (by simp; omega)]
  rw [readAt_append_left _ _ off1 n1 (by rw [hlen]; omega)]
  exact readAt_take l off2 off1 n1 h1

theorem readAt_writeAt_after (l bs : List Nat) (off2 off1 n1 : Nat)
    (h1 : off2 + bs.length ≤ off1) (h2 : off2 ≤ l.length) :
    readAt (writeAt l off2 bs) off1 n1 = readAt l off1 n1 := by
  unfold writeAt
  have hlen2 : (l.take off2 ++ bs).length = off2 + bs.length := by simp; omega
  rw [readAt_append_right _ _ off1 n1 (by rw [hlen2]; omega)]
  rw [hlen2]
  unfold readAt
  rw [List.drop_drop]
  congr 2
  omega

/-- Disjointness of the file regions of two fixups. -/
def FixupDisj (a b : Nat × Value) : Prop :=
  a.1 + a.2.serialize.length ≤ b.1 ∨ b.1 + b.2.serialize.length ≤ a.1

theorem applyFixups_length (fs : List (Nat × Value)) (l : List Nat)
    (hrange : ∀ g ∈ fs, g.1 + g.2.serialize.length ≤ l.length) :
    (applyFixups l fs).length = l.length := by
  induction fs generalizing l with
  | nil => rfl
  | cons g fs ih =>
    simp only [applyFixups]
    have hg := hrange g (by simp)
    have hw := writeAt_length l g.2.serialize g.1 hg
    rw [ih (writeAt l g.1 g.2.serialize) (fun f hf => by rw [hw]; exact hrange f (by simp [hf]))]
    exact hw

theorem applyFixups_readAt_untouched (fs : List (Nat × Value)) (l : List Nat) (off n : Nat)
    (hdisj : ∀ g ∈ fs, off + n ≤ g.1 ∨ g.1 + g.2.serialize.length ≤ off)
    (hrange : ∀ g ∈ fs, g.1 + g.2.serialize.length ≤ l.length) :
    readAt (applyFixups l fs) off n = readAt l off n := by
  induction fs generalizing l with
  | nil => rfl
  | cons g fs ih =>
    simp only [applyFixups]
    have hg := hrange g (by simp)
    have hw := writeAt_length l g.2.serialize g.1 hg
    rw [ih (writeAt l g.1 g.2.serialize)
      (fun f hf => hdisj f (by simp [hf]))
      (fun f hf => by rw [hw]; exact hrange f (by simp [hf]))]
    rcases hdisj g (by simp) with h | h
    · exact readAt_writeAt_before l g.2.serialize g.1 off n h (by omega)
    · exact readAt_writeAt_after l g.2.serialize g.1 off n h (by omega)

theorem applyFixups_reads (fs : List (Nat × Value)) (l : List Nat)
    (hrange : ∀ g ∈ fs, g.1 + g.2.serialize.length ≤ l.length)
    (hdisj : fs.Pairwise FixupDisj) :
    ∀ g ∈ fs, readAt (applyFixups l fs) g.1 g.2.serialize.length = g.2.serialize := by
  induction fs generalizing l with
  | nil => intro g hg; cases hg
  | cons g fs ih =>
    intro f hf
    simp only [applyFixups]
    have hg := hrange g (by simp)
    have hw := writeAt_length l g.2.serialize g.1 hg
    rcases List.mem_cons.mp hf with hf | hf
    · subst hf
      rw [applyFixups_readAt_untouched fs (writeAt l f.1 f.2.serialize) f.1 f.2.serialize.length
        (fun h hh => (List.pairwise_cons.mp hdisj).1 h hh)
        (fun h hh => by rw [hw]; exact hrange h (by simp [hh]))]
      exact readAt_writeAt_self l f.2.serialize f.1 hg
    · exact ih (writeAt l g.1 g.2.serialize)
        (fun h hh => by rw [hw]; exact hrange h (by simp [hh]))
        (List.pairwise_cons.mp hdisj).2 f hf

theorem add_coe1_ok (coes : List (SortID × SortID × Coe)) (sp : Span)
    (sorts : List SortData) (s1 s2 : SortID) (c : Coe)
    (cs' : List (SortID × SortID × Coe))
    (h : add_coe1 coes sp sorts s1 s2 c = .ok cs') :
    cs' = coes ++ [(s1, s2, c)] ∧ s1 ≠ s2 ∧ coeLookup coes s1 s2 = none := by
  unfold add_coe1 at h
  split at h
  · exact absurd h (by simp)
  next hne =>
    split at h
    · exact absurd h (by simp)
    next heq => exact ⟨by injection h with h; exact h.symm, hne, heq⟩

theorem hasCoe_append (cs ds : List (SortID × SortID × Coe)) (a b : SortID) :
    hasCoe (cs ++ ds) a b = (hasCoe cs a b || hasCoe ds a b) := by
  simp [hasCoe, List.any_append]

theorem addCoeList_ok_mono (sp : Span) (sorts : List SortData) :
    ∀ (todo : List (SortID × SortID × Coe)) (cs cs' : List (SortID × SortID × Coe)),
    addCoeList sp sorts cs todo = (cs', none) →
    ∀ a b, hasCoe cs a b = true → hasCoe cs' a b = true := by
  intro todo
  induction todo with
  | nil =>
    intro cs cs' h a b hab
    unfold addCoeList at h
    injection h with h1 _
    exact h1 ▸ hab
  | cons e todo ih =>
    rcases e with ⟨s1, s2, c⟩
    intro cs cs' h a b hab
    unfold addCoeList at h
    split at h
    · exact absurd (congrArg Prod.snd h) (by simp)
    next cs2 heq =>
      obtain ⟨h1, _, _⟩ := add_coe1_ok cs sp sorts s1 s2 c cs2 heq
      exact ih cs2 cs' h a b (by rw [h1, hasCoe_append, hab]; rfl)

theorem addCoeList_ok_all (sp : Span) (sorts : List SortData) :
    ∀ (todo : List (SortID × SortID × Coe)) (cs cs' : List (SortID × SortID × Coe)),
    addCoeList sp sorts cs todo = (cs', none) →
    ∀ e ∈ todo, hasCoe cs' e.1 e.2.1 = true := by
  intro todo
  induction todo with
  | nil => intro cs cs' _ e he; cases he
  | cons e0 todo ih =>
    rcases e0 with ⟨s1, s2, c⟩
    intro cs cs' h e he
    unfold addCoeList at h
    split at h
    · exact absurd (congrArg Prod.snd h) (by simp)
    next cs2 heq =>
      obtain ⟨h1, _, _⟩ := add_coe1_ok cs sp sorts s1 s2 c cs2 heq
      rcases List.mem_cons.mp he with rfl | he
      · refine addCoeList_ok_mono sp sorts todo cs2 cs' h s1 s2 ?_
        rw [h1, hasCoe_append]
        simp [hasCoe]
      · exact ih cs2 cs' h e he

theorem coeLookup_eq_none (cs : List (SortID × SortID × Coe)) (a b : SortID)
    (h : coeLookup cs a b = none) : ∀ e ∈ cs, ¬(e.1 = a ∧ e.2.1 = b) := by
  intro e he
  unfold coeLookup at h
  rcases hf : cs.find? (fun e => e.1 = a ∧ e.2.1 = b) with _ | v
  · have := List.find?_eq_none.mp hf e he
    simpa using this
  · rw [hf] at h; cases h

theorem addCoeList_nodup (sp : Span) (sorts : List SortData) :
    ∀ (todo : List (SortID × SortID × Coe)) (cs cs' : List (SortID × SortID × Coe)),
    addCoeList sp sorts cs todo = (cs', none) → nodupKeys cs → nodupKeys cs' := by
  intro todo
  induction todo with
  | nil =>
    intro cs cs' h hd
    unfold addCoeList at h
    injection h with h1 _
    exact h1 ▸ hd
  | cons e0 todo ih =>
    rcases e0 with ⟨s1, s2, c⟩
    intro cs cs' h hd
    unfold addCoeList at h
    split at h
    · exact absurd (congrArg Prod.snd h) (by simp)
    next cs2 heq =>
      obtain ⟨h1, _, hnone⟩ := add_coe1_ok cs sp sorts s1 s2 c cs2 heq
      refine ih cs2 cs' h ?_
      rw [h1]
      unfold nodupKeys
      rw [List.pairwise_append]
      refine ⟨hd, by simp, ?_⟩
      intro e1 he1 e2 he2
      rcases List.mem_singleton.mp he2 with rfl
      exact coeLookup_eq_none cs s1 s2 hnone e1 he1

theorem addCoeList_noself (sp : Span) (sorts : List SortData) :
    ∀ (todo : List (SortID × SortID × Coe)) (cs cs' : List (SortID × SortID × Coe)),
    addCoeList sp sorts cs todo = (cs', none) → noSelf cs → noSelf cs' := by
  intro todo
  induction todo with
  | nil =>
    intro cs cs' h hd
    unfold addCoeList at h
    injection h with h1 _
    exact h1 ▸ hd
  | cons e0 todo ih =>
    rcases e0 with ⟨s1, s2, c⟩
    intro cs cs' h hd
    unfold addCoeList at h
    split at h
    · exact absurd (congrArg Prod.snd h) (by simp)
    next cs2 heq =>
      obtain ⟨h1, hne, _⟩ := add_coe1_ok cs sp sorts s1 s2 c cs2 heq
      refine ih cs2 cs' h ?_
      rw [h1]
      intro e he
      rcases List.mem_append.mp he with he | he
      · exact hd e he
      · rcases List.mem_singleton.mp he with rfl
        exact hne

theorem hasCoe_exists (cs : List (SortID × SortID × Coe)) (a b : SortID)
    (h : hasCoe cs a b = true) : ∃ e ∈ cs, e.1 = a ∧ e.2.1 = b := by
  obtain ⟨e, he, hp⟩ := List.any_eq_true.mp h
  exact ⟨e, he, of_decide_eq_true hp⟩

/-- C3 (amended): after a successful `add_coe(s1, s2, t)`, every sort with a
prior edge into `s1` gains an edge to `s2`, the direct edge `s1 → s2` is
present, and every prior target of `s2` gains an edge from `s1`; the graph
keeps at most one edge per ordered pair and stays free of self-edges.  (The
three-hop composition `a → b` claimed by the spec is not inserted; see the
counterexample.) -/
theorem add_coe_closure (pe : ParserEnv) (sp : Span) (sorts : List SortData)
    (s1 s2 : SortID) (fsp : FileSpan) (t : TermID) (pe' : ParserEnv)
    (h : pe.add_coe sp sorts s1 s2 fsp t = (pe', none)) :
    (∀ a, hasCoe pe.coes a s1 = true → hasCoe pe'.coes a s2 = true) ∧
    hasCoe pe'.coes s1 s2 = true ∧
    (∀ b, hasCoe pe.coes s2 b = true → hasCoe pe'.coes s1 b = true) ∧
    (nodupKeys pe.coes → nodupKeys pe'.coes) ∧
    (noSelf pe.coes → noSelf pe'.coes) := by
  unfold ParserEnv.add_coe at h
  split at h
  next heq => exact absurd (congrArg Prod.snd h) (by simp)
  next pe2 heq =>
    have hcoes : pe'.coes = pe2.coes := by
      unfold ParserEnv.update_provs at h
      split at h
      · injection h with h1 _
        rw [← h1]
      · exact absurd (congrArg Prod.snd h) (by simp)
    unfold ParserEnv.add_coe_raw at heq
    rcases heqr : addCoeList sp sorts pe.coes (coeTodo pe.coes s1 s2 (.one fsp t))
      with ⟨cs', err⟩
    rw [heqr] at heq
    injection heq with h1 h2
    have hcs : pe2.coes = cs' := by rw [← h1]
    subst h2
    rw [hcoes, hcs]
    have hall := addCoeList_ok_all sp sorts _ _ _ heqr
    refine ⟨?_, ?_, ?_, ?_, ?_⟩
    · intro a ha
      obtain ⟨e, he, he1, he2⟩ := hasCoe_exists pe.coes a s1 ha
      have hm : (a, s2, Coe.trans e.2.2 s1 (.one fsp t)) ∈
          pe.coes.filterMap (fun e =>
            if e.2.1 = s1 then some (e.1, s2, Coe.trans e.2.2 s1 (.one fsp t)) else none) := by
        refine List.mem_filterMap.mpr ⟨e, he, ?_⟩
        rw [if_pos he2, he1]
      exact hall (a, s2, Coe.trans e.2.2 s1 (.one fsp t))
        (List.mem_append.mpr (Or.inl (List.mem_append.mpr (Or.inl hm))))
    · exact hall (s1, s2, .one fsp t)
        (List.mem_append.mpr (Or.inl (List.mem_append.mpr (Or.inr (by simp)))))
    · intro b hb
      obtain ⟨e, he, he1, he2⟩ := hasCoe_exists pe.coes s2 b hb
      have hm : (s1, e.2.1, Coe.trans (.one fsp t) s2 e.2.2) ∈
          pe.coes.filterMap (fun e =>
            if e.1 = s2 then some (s1, e.2.1, Coe.trans (.one fsp t) s2 e.2.2) else none) := by
        refine List.mem_filterMap.mpr ⟨e, he, ?_⟩
        rw [if_pos he1]
      have hmem := hall (s1, e.2.1, Coe.trans (.one fsp t) s2 e.2.2)
        (List.mem_append.mpr (Or.inr hm))
      rw [he2] at hmem
      exact hmem
    · exact addCoeList_nodup sp sorts _ _ _ heqr
    · exact addCoeList_noself sp sorts _ _ _ heqr

/-- C3 counterexample: on the reachable graph with edges `a → s1` and
`s2 → b`, the call `add_coe(s1, s2)` succeeds, yet the three-hop composite
`a → b` the claim requires is absent afterwards. -/
theorem add_coe_closure_counterexample :
    hasCoe peG2.coes ⟨0⟩ ⟨1⟩ = true ∧ hasCoe peG2.coes ⟨2⟩ ⟨3⟩ = true ∧
    (peG2.add_coe sp0 sorts4 ⟨1⟩ ⟨2⟩ fspA ⟨12⟩).2 = none ∧
    hasCoe (peG2.add_coe sp0 sorts4 ⟨1⟩ ⟨2⟩ fspA ⟨12⟩).1.coes ⟨0⟩ ⟨3⟩ = false := by
  decide

/-- C3 witness: the amended closure theorem applied to that same successful
call. -/
theorem add_coe_closure_witness :
    hasCoe peG3.coes ⟨0⟩ ⟨2⟩ = true ∧ hasCoe peG3.coes ⟨1⟩ ⟨2⟩ = true ∧
    hasCoe peG3.coes ⟨1⟩ ⟨3⟩ = true := by
  have h := add_coe_closure peG2 sp0 sorts4 ⟨1⟩ ⟨2⟩ fspA ⟨12⟩ peG3 (by decide)
  exact ⟨h.1 ⟨0⟩ (by decide), h.2.1, h.2.2.1 ⟨3⟩ (by decide)⟩

/-- C9: `add_coe` is not atomic on failure.  Re-adding `s2 → b` on the gap
graph inserts the composition `a → b` before the duplicate edge check
fails, leaving the graph changed; and adding a second provable target
produces an error from the provable-projection refresh while the new edge
stays and `coe_prov` keeps its old value. -/
theorem add_coe_not_atomic :
    ((peG3.add_coe sp0 sorts4 ⟨2⟩ ⟨3⟩ fspA ⟨13⟩).2.isSome = true ∧
     hasCoe (peG3.add_coe sp0 sorts4 ⟨2⟩ ⟨3⟩ fspA ⟨13⟩).1.coes ⟨0⟩ ⟨3⟩ = true ∧
     hasCoe peG3.coes ⟨0⟩ ⟨3⟩ = false) ∧
    ((peP1.add_coe sp0 sortsP ⟨0⟩ ⟨2⟩ fspA ⟨21⟩).2.isSome = true ∧
     hasCoe (peP1.add_coe sp0 sortsP ⟨0⟩ ⟨2⟩ fspA ⟨21⟩).1.coes ⟨0⟩ ⟨2⟩ = true ∧
     hasCoe peP1.coes ⟨0⟩ ⟨2⟩ = false ∧
     (peP1.add_coe sp0 sortsP ⟨0⟩ ⟨2⟩ fspA ⟨21⟩).1.coe_prov = peP1.coe_prov) := by
  decide

/-- C4 (amended): `add_sort` returns `Overflow` exactly when the `u8` id
space is exhausted, that is, when the environment already has 256 or more
sorts (not 128 as the spec states). -/
theorem add_sort_overflow_iff (env : Environment) (s : String) (fsp : FileSpan)
    (sd : Modifiers) :
    (∃ r, env.add_sort s fsp sd = some (.error .overflow, r)) ↔
    256 ≤ env.sorts.length := by
  constructor
  · rintro ⟨r, hr⟩
    by_cases hlen : 256 ≤ env.sorts.length
    · exact hlen
    · exfalso
      unfold Environment.add_sort at hr
      rw [if_neg hlen] at hr
      split at hr
      · split at hr
        · cases hr
        · split at hr
          · simp at hr
          · simp at hr
      · simp at hr
  · intro hlen
    exact ⟨env, by unfold Environment.add_sort; rw [if_pos hlen]⟩

set_option maxRecDepth 100000 in
/-- C4 counterexample: an environment with exactly 128 sorts admits a fresh
129th sort with id 128 instead of failing with `Overflow`. -/
theorem add_sort_overflow_counterexample :
    env128.sorts.length = 128 ∧
    ∃ e, env128.add_sort "z" fspA ⟨0⟩ = some (.ok ⟨128⟩, e) :=
  ⟨by decide, ⟨_, rfl⟩⟩

/-- C6: on an associativity conflict the `Incompatible` pair is ordered with
the left-associative site first, whichever call came first: if the level is
registered with associativity `r0` and re-registered with `¬r0`, then
`decl1` is the span of whichever site had `right? = false`. -/
theorem add_prec_assoc_left_first (pe : ParserEnv) (p : Nat) (sp : FileSpan)
    (r : Bool) (sp0' : FileSpan) (r0 : Bool)
    (hlook : alookup pe.prec_assoc p = some (sp0', r0)) (hne : r = !r0) :
    pe.add_prec_assoc p sp r =
      .error ⟨if r0 then sp else sp0', if r0 then sp0' else sp⟩ := by
  subst hne
  unfold ParserEnv.add_prec_assoc
  rw [hlook]
  cases r0 <;> simp

/-- C6 witness: level 5 registered left-associative at `fspA`, re-registered
right-associative at `fspB`; the error pair is `(fspA, fspB)`. -/
theorem add_prec_assoc_left_first_witness :
    peC6.add_prec_assoc 5 fspB true = .error ⟨fspA, fspB⟩ :=
  add_prec_assoc_left_first peC6 5 fspB true fspA false rfl rfl

/-- C5: redeclaration behaviour of `add_term` and `add_thm`.  With the id
space not exhausted: re-adding a name that names the same kind with an
equal span returns the existing id, leaves the environment unchanged and
never invokes the builder; a same-kind conflict with a different span
fails with `Redeclaration` carrying the old id and the prior span; a
cross-kind conflict fails with `Redeclaration` carrying no id (and the
prior span of the other declaration). -/
theorem add_term_thm_redeclaration (env : Environment) (s : String) (sp : FileSpan)
    (f : Unit → Term) (g : Unit → Thm)
    (hterms : env.terms.length < 2 ^ 32) (hthms : env.thms.length < 2 ^ 32) :
    (∀ old oldT, alookup env.decl_keys s = some (.term old) →
      env.terms[old.n]? = some oldT →
      (oldT.span = sp →
        env.add_term s sp f = some (.ok old, env) ∧
        ∀ f2, env.add_term s sp f2 = env.add_term s sp f) ∧
      (oldT.span ≠ sp → ∃ re, env.add_term s sp f =
        some (.error (.redeclaration (some old) re), env) ∧ re.other = oldT.span)) ∧
    (∀ old oldT, alookup env.decl_keys s = some (.thm old) →
      env.thms[old.n]? = some oldT →
      ∃ re, env.add_term s sp f =
        some (.error (.redeclaration none re), env) ∧ re.other = oldT.span) ∧
    (∀ old oldT, alookup env.decl_keys s = some (.thm old) →
      env.thms[old.n]? = some oldT →
      (oldT.span = sp →
        env.add_thm s sp g = some (.ok old, env) ∧
        ∀ g2, env.add_thm s sp g2 = env.add_thm s sp g) ∧
      (oldT.span ≠ sp → ∃ re, env.add_thm s sp g =
        some (.error (.redeclaration (some old) re), env) ∧ re.other = oldT.span)) ∧
    (∀ old oldT, alookup env.decl_keys s = some (.term old) →
      env.terms[old.n]? = some oldT →
      ∃ re, env.add_thm s sp g =
        some (.error (.redeclaration none re), env) ∧ re.other = oldT.span) := by
  have hne : (2 ^ 32 ≤ env.terms.length) = False := eq_false (by omega)
  have hne' : (2 ^ 32 ≤ env.thms.length) = False := eq_false (by omega)
  refine ⟨?_, ?_, ?_, ?_⟩
  · intro old oldT h1 h2
    constructor
    · intro hsp
      have heq : env.add_term s sp f = some (.ok old, env) := by
        simp [Environment.add_term, hne, h1, h2, hsp] <;> omega
      refine ⟨heq, fun f2 => ?_⟩
      have heq2 : env.add_term s sp f2 = some (.ok old, env) := by
        simp [Environment.add_term, hne, h1, h2, hsp] <;> omega
      rw [heq, heq2]
    · intro hsp
      refine ⟨⟨"term " ++ s ++ " redeclared", "previously declared here", oldT.span⟩,
        ?_, rfl⟩
      simp [Environment.add_term, hne, h1, h2, hsp] <;> omega
  · intro old oldT h1 h2
    refine ⟨⟨"term " ++ s ++ " redeclared", "previously declared here", oldT.span⟩,
      ?_, rfl⟩
    simp [Environment.add_term, hne, h1, h2] <;> omega
  · intro old oldT h1 h2
    constructor
    · intro hsp
      have heq : env.add_thm s sp g = some (.ok old, env) := by
        simp [Environment.add_thm, hne', h1, h2, hsp] <;> omega
      refine ⟨heq, fun g2 => ?_⟩
      have heq2 : env.add_thm s sp g2 = some (.ok old, env) := by
        simp [Environment.add_thm, hne', h1, h2, hsp] <;> omega
      rw [heq, heq2]
    · intro hsp
      refine ⟨⟨"theorem " ++ s ++ " redeclared", "previously declared here", oldT.span⟩,
        ?_, rfl⟩
      simp [Environment.add_thm, hne', h1, h2, hsp] <;> omega
  · intro old oldT h1 h2
    refine ⟨⟨"theorem " ++ s ++ " redeclared", "previously declared here", oldT.span⟩,
      ?_, rfl⟩
    simp [Environment.add_thm, hne', h1, h2] <;> omega

/-- C5 witness: on `envC5` (one term `f` at `fspA`, one axiom `h` at
`fspB`), re-adding term `f` at its own span is the identity; re-adding it
at another span reports the old id and `fspA`; adding a term named `h`
reports no id and `fspB`. -/
theorem add_term_thm_redeclaration_witness :
    (envC5.add_term "f" fspA (fun _ => termF) = some (.ok ⟨0⟩, envC5)) ∧
    (∃ re, envC5.add_term "f" fspB (fun _ => termF) =
      some (.error (.redeclaration (some ⟨0⟩) re), envC5) ∧ re.other = fspA) ∧
    (∃ re, envC5.add_term "h" fspA (fun _ => termF) =
      some (.error (.redeclaration none re), envC5) ∧ re.other = fspB) := by
  refine ⟨?_, ?_, ?_⟩
  · exact (((add_term_thm_redeclaration envC5 "f" fspA (fun _ => termF)
      (fun _ => thmH) (by decide) (by decide)).1 ⟨0⟩ termF rfl rfl).1 rfl).1
  · exact ((add_term_thm_redeclaration envC5 "f" fspB (fun _ => termF)
      (fun _ => thmH) (by decide) (by decide)).1 ⟨0⟩ termF rfl rfl).2 (by decide)
  · exact (add_term_thm_redeclaration envC5 "h" fspA (fun _ => termF)
      (fun _ => thmH) (by decide) (by decide)).2.1 ⟨0⟩ thmH rfl rfl

/-- C10: declaration admission is atomic on error: whenever `add_sort`,
`add_term` or `add_thm` returns a `Redeclaration` or `Overflow` error, the
returned environment is the argument unchanged, and for the lazy builders
the result does not depend on the builder (it was never invoked). -/
theorem admission_atomic_on_error (env : Environment) :
    (∀ s fsp sd e env', env.add_sort s fsp sd = some (.error e, env') → env' = env) ∧
    (∀ s sp f e env', env.add_term s sp f = some (.error e, env') →
      env' = env ∧ ∀ g, env.add_term s sp g = env.add_term s sp f) ∧
    (∀ s sp f e env', env.add_thm s sp f = some (.error e, env') →
      env' = env ∧ ∀ g, env.add_thm s sp g = env.add_thm s sp f) := by
  refine ⟨?_, ?_, ?_⟩
  · intro s fsp sd e env' h
    unfold Environment.add_sort at h
    split at h
    · injection h with h1; injection h1 with _ h2; exact h2.symm
    · split at h
      · split at h
        · cases h
        · split at h
          · simp at h
          · injection h with h1; injection h1 with _ h2; exact h2.symm
      · simp at h
  · intro s sp f e env' h
    constructor
    · unfold Environment.add_term at h
      split at h
      · injection h with h1; injection h1 with _ h2; exact h2.symm
      · split at h
        · split at h
          · cases h
          · split at h
            · simp at h
            · injection h with h1; injection h1 with _ h2; exact h2.symm
        · split at h
          · cases h
          · injection h with h1; injection h1 with _ h2; exact h2.symm
        · simp at h
    · intro g
      by_cases hcond : 2 ^ 32 ≤ env.terms.length
      · unfold Environment.add_term
        rw [if_pos hcond, if_pos hcond]
      · rcases h1 : alookup env.decl_keys s with _ | k
        · exfalso
          unfold Environment.add_term at h
          rw [if_neg hcond] at h
          simp only [h1] at h
          exact absurd h (by simp)
        · rcases k with i | i
          · unfold Environment.add_term
            rw [if_neg hcond, if_neg hcond]
            simp only [h1]
          · unfold Environment.add_term
            rw [if_neg hcond, if_neg hcond]
            simp only [h1]
  · intro s sp f e env' h
    constructor
    · unfold Environment.add_thm at h
      split at h
      · injection h with h1; injection h1 with _ h2; exact h2.symm
      · split at h
        · split at h
          · cases h
          · split at h
            · simp at h
            · injection h with h1; injection h1 with _ h2; exact h2.symm
        · split at h
          · cases h
          · injection h with h1; injection h1 with _ h2; exact h2.symm
        · simp at h
    · intro g
      by_cases hcond : 2 ^ 32 ≤ env.thms.length
      · unfold Environment.add_thm
        rw [if_pos hcond, if_pos hcond]
      · rcases h1 : alookup env.decl_keys s with _ | k
        · exfalso
          unfold Environment.add_thm at h
          rw [if_neg hcond] at h
          simp only [h1] at h
          exact absurd h (by simp)
        · rcases k with i | i
          · unfold Environment.add_thm
            rw [if_neg hcond, if_neg hcond]
            simp only [h1]
          · unfold Environment.add_thm
            rw [if_neg hcond, if_neg hcond]
            simp only [h1]

/-- C10 witness: redeclaring sort `a` of `envC10` with different modifiers
errors, and the atomicity theorem applies: the environment comes back
unchanged. -/
theorem admission_atomic_on_error_witness :
    ∃ e env', envC10.add_sort "a" fspB ⟨1⟩ = some (.error e, env') ∧ env' = envC10 :=
  ⟨_, _, rfl, (admission_atomic_on_error envC10).1 "a" fspB ⟨1⟩ _ _ rfl⟩

theorem thmHypsUnify_chunks (heap : List ExprNode) :
    ∀ (hs : List ExprNode) (f : Nat) (r : Reorder) (s : List Nat)
      (δ : List Nat) (r2 : Reorder) (s2 : List Nat) (f2 : Nat),
    thmHypsUnify heap f r s hs = some (δ, r2, s2, f2) →
    ∃ chunks, UnifyHypChunks heap f r s hs chunks r2 s2 f2 ∧ δ = chunks.flatten := by
  intro hs
  induction hs with
  | nil =>
    intro f r s δ r2 s2 f2 h
    unfold thmHypsUnify at h
    injection h with h1
    injection h1 with h1 h2
    injection h2 with h2 h3
    injection h3 with h3 h4
    exact ⟨[], by rw [← h2, ← h3, ← h4]; exact .nil f r s, h1.symm⟩
  | cons h0 hs ih =>
    intro f r s δ r2 s2 f2 h
    unfold thmHypsUnify at h
    cases hu : unifyRun f heap r s [h0] [] with
    | none => rw [hu] at h; cases h
    | some v =>
      rw [hu] at h
      rcases v with ⟨u, r1, s1, f1⟩
      simp only [Option.some_bind] at h
      cases ht : thmHypsUnify heap f1 r1 s1 hs with
      | none => rw [ht] at h; cases h
      | some w =>
        rw [ht] at h
        rcases w with ⟨δrest, r2', s2', f2'⟩
        simp only [Option.some_bind] at h
        injection h with h1
        injection h1 with h1 h2
        injection h2 with h2 h3
        injection h3 with h3 h4
        obtain ⟨cs, hcs, hδ⟩ := ih f1 r1 s1 δrest r2' s2' f2' ht
        refine ⟨(UnifyCmd.hyp.write_to ++ u) :: cs, ?_, ?_⟩
        · rw [← h2, ← h3, ← h4]
          exact .cons hu hcs
        · rw [← h1, hδ]
          simp [List.append_assoc]

/-- C7: the theorem-header bytes after the binders decompose as the unify
stream of the return expression, then one chunk per hypothesis in reverse
declaration order — each a `UnifyCmd::Hyp` opcode followed by that
hypothesis's unify stream under the threaded reorder state — and a final
`0x00` terminator. -/
theorem thm_header_unify_layout (F : Nat) (heap : List ExprNode) (ret : ExprNode)
    (hyps : List ExprNode) (nargs : Nat) (δ : List Nat) (rfin : Reorder)
    (h : writeThmUnifyBody F heap ret hyps nargs = some (δ, rfin)) :
    ∃ u0 r1 s1 f1 chunks r2 s2 f2,
      unifyRun F heap (Reorder.new nargs heap.length) [] [ret] [] =
        some (u0, r1, s1, f1) ∧
      UnifyHypChunks heap f1 r1 s1 hyps.reverse chunks r2 s2 f2 ∧
      δ = u0 ++ chunks.flatten ++ [0] ∧ r2 = rfin := by
  unfold writeThmUnifyBody at h
  split at h
  · cases h
  · cases hu : unifyRun F heap (Reorder.new nargs heap.length) [] [ret] [] with
    | none => rw [hu] at h; cases h
    | some v =>
      rw [hu] at h
      rcases v with ⟨u0, r1, s1, f1⟩
      simp only [Option.some_bind] at h
      cases ht : thmHypsUnify heap f1 r1 s1 hyps.reverse with
      | none => rw [ht] at h; cases h
      | some w =>
        rw [ht] at h
        rcases w with ⟨δh, r2, s2, f2⟩
        simp only [Option.some_bind] at h
        injection h with h1
        injection h1 with h1 h2
        obtain ⟨cs, hcs, hδ⟩ := thmHypsUnify_chunks heap hyps.reverse f1 r1 s1 δh r2 s2 f2 ht
        exact ⟨u0, r1, s1, f1, cs, r2, s2, f2, rfl, hcs, by rw [← h1, hδ], h2⟩

/-- C7 witness: the layout theorem applied to a theorem with one shared
argument and two hypotheses. -/
theorem thm_header_unify_layout_witness :
    ∃ δ rfin, writeThmUnifyBody 100 [ExprNode.ref 0] (.app ⟨0⟩ [.ref 0])
      [.app ⟨1⟩ [], .app ⟨2⟩ []] 1 = some (δ, rfin) ∧
      ∃ u0 r1 s1 f1 chunks r2 s2 f2,
        unifyRun 100 [ExprNode.ref 0] (Reorder.new 1 1) [] [.app ⟨0⟩ [.ref 0]] [] =
          some (u0, r1, s1, f1) ∧
        UnifyHypChunks [ExprNode.ref 0] f1 r1 s1
          ([ExprNode.app ⟨1⟩ [], .app ⟨2⟩ []]).reverse chunks r2 s2 f2 ∧
        δ = u0 ++ chunks.flatten ++ [0] ∧ r2 = rfin :=
  ⟨_, _, rfl, thm_header_unify_layout 100 _ _ _ 1 _ _ rfl⟩

theorem termid_remap_id (t : TermID) : t.remap Remapper.empty = t := rfl

theorem nota_info_remap_id (n : NotaInfo) : n.remap Remapper.empty = n := rfl

theorem zipWith_or_self (l : List Nat) :
    List.zipWith (fun a b => a ||| b) l l = l := by
  induction l with
  | nil => rfl
  | cons a l ih => simp [ih, Nat.or_self]

theorem Delims.merge_self (d : Delims) : d.merge d = d := by
  cases d
  simp [Delims.merge, zipWith_or_self]

theorem hasCoe_lookup_isSome (cs : List (SortID × SortID × Coe)) (a b : SortID)
    (h : hasCoe cs a b = true) : (coeLookup cs a b).isSome = true := by
  obtain ⟨e, he, hp⟩ := List.any_eq_true.mp h
  unfold coeLookup
  rcases hf : cs.find? (fun e => e.1 = a ∧ e.2.1 = b) with _ | v
  · exact absurd hp (by simpa using List.find?_eq_none.mp hf e he)
  · rw [hf]
    rfl

theorem add_coe1_error_of (cs : List (SortID × SortID × Coe)) (sp : Span)
    (sorts : List SortData) (s1 s2 : SortID) (c : Coe)
    (h : s1 = s2 ∨ (coeLookup cs s1 s2).isSome = true) :
    ∃ e, add_coe1 cs sp sorts s1 s2 c = .error e := by
  unfold add_coe1
  by_cases hse : s1 = s2
  · rw [if_pos hse]; exact ⟨_, rfl⟩
  · rw [if_neg hse]
    rcases h with h | h
    · exact absurd h hse
    · rcases hl : coeLookup cs s1 s2 with _ | v
      · rw [hl] at h; cases h
      · exact ⟨_, rfl⟩

theorem addCoeList_head_error (cs : List (SortID × SortID × Coe)) (sp : Span)
    (sorts : List SortData) (a b : SortID) (c : Coe) (e : ElabError)
    (rest : List (SortID × SortID × Coe))
    (h : add_coe1 cs sp sorts a b c = .error e) :
    addCoeList sp sorts cs ((a, b, c) :: rest) = (cs, some e) := by
  unfold addCoeList
  rw [h]

theorem add_coe_raw_existing (pe : ParserEnv) (sp : Span) (sorts : List SortData)
    (s1 s2 : SortID) (fsp : FileSpan) (t : TermID)
    (hex : hasCoe pe.coes s1 s2 = true)
    (hclosed : CoesClosed pe.coes)
    (hnoself : ∀ a, hasCoe pe.coes a a = false) :
    ∃ e, pe.add_coe_raw sp sorts s1 s2 fsp t = (pe, some e) := by
  have hne : s1 ≠ s2 := by
    intro h
    rw [h, hnoself s2] at hex
    cases hex
  have hstep : ∃ e, addCoeList sp sorts pe.coes (coeTodo pe.coes s1 s2 (.one fsp t))
      = (pe.coes, some e) := by
    unfold coeTodo
    rcases hp : pe.coes.filterMap (fun e =>
        if e.2.1 = s1 then some (e.1, s2, Coe.trans e.2.2 s1 (.one fsp t)) else none)
      with _ | ⟨y, ys⟩
    · rw [hp]
      obtain ⟨e, he⟩ := add_coe1_error_of pe.coes sp sorts s1 s2 (.one fsp t)
        (Or.inr (hasCoe_lookup_isSome pe.coes s1 s2 hex))
      exact ⟨e, addCoeList_head_error pe.coes sp sorts s1 s2 (.one fsp t) e _ he⟩
    · rw [hp]
      have hy : y ∈ pe.coes.filterMap (fun e =>
          if e.2.1 = s1 then some (e.1, s2, Coe.trans e.2.2 s1 (.one fsp t)) else none) := by
        rw [hp]; exact List.mem_cons_self y ys
      obtain ⟨w, hw, hfw⟩ := List.mem_filterMap.mp hy
      by_cases hw1 : w.2.1 = s1
      · rw [if_pos hw1] at hfw
        have hwhas : hasCoe pe.coes w.1 s1 = true :=
          List.any_eq_true.mpr ⟨w, hw, by simp [hw1]⟩
        obtain ⟨e, he⟩ := add_coe1_error_of pe.coes sp sorts w.1 s2
          (Coe.trans w.2.2 s1 (.one fsp t))
          (by
            by_cases hws : w.1 = s2
            · exact Or.inl hws
            · exact Or.inr (hasCoe_lookup_isSome pe.coes w.1 s2
                (hclosed w.1 s1 s2 hwhas hex)))
        have hy2 : y = (w.1, s2, Coe.trans w.2.2 s1 (.one fsp t)) := by
          injection hfw with h
          exact h.symm
        subst hy2
        simp only [List.cons_append]
        exact ⟨e, addCoeList_head_error pe.coes sp sorts w.1 s2 _ e _ he⟩
      · rw [if_neg hw1] at hfw
        cases hfw
  obtain ⟨e, he⟩ := hstep
  refine ⟨e, ?_⟩
  unfold ParserEnv.add_coe_raw
  rw [he]

theorem mergeConsts_self (sp : Span) (pe : ParserEnv) :
    ∀ (l : List (String × (FileSpan × Prec))) (errs : List ElabError),
    (∀ p ∈ l, alookup pe.consts p.1 = some p.2) →
    mergeConsts sp pe errs l = (pe, errs) := by
  intro l
  induction l with
  | nil => intro errs _; rfl
  | cons p rest ih =>
    rcases p with ⟨tk, fsp, pr⟩
    intro errs hl
    have hconst : pe.add_const tk fsp pr = .ok pe := by
      have := hl (tk, fsp, pr) (by simp)
      simp [ParserEnv.add_const, this]
    unfold mergeConsts
    rw [hconst]
    exact ih errs (fun p hp => hl p (by simp [hp]))

theorem mergePrecAssoc_self (sp : Span) (pe : ParserEnv) :
    ∀ (l : List (Nat × (FileSpan × Bool))) (errs : List ElabError),
    (∀ p ∈ l, alookup pe.prec_assoc p.1 = some p.2) →
    mergePrecAssoc sp pe errs l = (pe, errs) := by
  intro l
  induction l with
  | nil => intro errs _; rfl
  | cons p rest ih =>
    rcases p with ⟨pl, fsp, r⟩
    intro errs hl
    have hpa : pe.add_prec_assoc pl fsp r = .ok pe := by
      have := hl (pl, fsp, r) (by simp)
      simp [ParserEnv.add_prec_assoc, this]
    unfold mergePrecAssoc
    rw [hpa]
    exact ih errs (fun p hp => hl p (by simp [hp]))

theorem mergeNotaTable_self (sp : Span) (m : List (String × NotaInfo)) :
    ∀ (l : List (String × NotaInfo)) (errs : List ElabError),
    (∀ p ∈ l, alookup m p.1 = some p.2) →
    mergeNotaTable sp Remapper.empty m errs l = (m, errs) := by
  intro l
  induction l with
  | nil => intro errs _; rfl
  | cons p rest ih =>
    rcases p with ⟨tk, i⟩
    intro errs hl
    have hni : ParserEnv.add_nota_info m tk (i.remap Remapper.empty) = .ok m := by
      have := hl (tk, i) (by simp)
      rw [nota_info_remap_id]
      simp [ParserEnv.add_nota_info, this]
    unfold mergeNotaTable
    rw [hni]
    exact ih errs (fun p hp => hl p (by simp [hp]))

theorem mergeCoes_self (sp : Span) (sorts : List SortData) (pe : ParserEnv)
    (hclosed : CoesClosed pe.coes) (hnoself : ∀ a, hasCoe pe.coes a a = false) :
    ∀ (l : List (SortID × SortID × Coe)) (errs : List ElabError),
    (∀ e ∈ l, hasCoe pe.coes e.1 e.2.1 = true) →
    ∃ errs2, mergeCoes sp sorts Remapper.empty pe errs l = (pe, errs2) := by
  intro l
  induction l with
  | nil => intro errs _; exact ⟨errs, rfl⟩
  | cons p rest ih =>
    rcases p with ⟨s1, s2, c⟩
    intro errs hl
    cases c with
    | one fsp t =>
      obtain ⟨e, he⟩ := add_coe_raw_existing pe sp sorts s1 s2 fsp
        (t.remap Remapper.empty) (hl (s1, s2, .one fsp t) (by simp)) hclosed hnoself
      obtain ⟨errs2, hrest⟩ := ih (errs ++ [e]) (fun p hp => hl p (by simp [hp]))
      refine ⟨errs2, ?_⟩
      simp only [mergeCoes]
      rw [he]
      exact hrest
    | trans c1 s c2 =>
      obtain ⟨errs2, hrest⟩ := ih errs (fun p hp => hl p (by simp [hp]))
      exact ⟨errs2, hrest⟩

theorem parser_env_merge_self (pe : ParserEnv) (sp : Span) (sorts : List SortData)
    (errs : List ElabError)
    (hconst : ∀ p ∈ pe.consts, alookup pe.consts p.1 = some p.2)
    (hprec : ∀ p ∈ pe.prec_assoc, alookup pe.prec_assoc p.1 = some p.2)
    (hpre : ∀ p ∈ pe.prefixes, alookup pe.prefixes p.1 = some p.2)
    (hinf : ∀ p ∈ pe.infixes, alookup pe.infixes p.1 = some p.2)
    (hclosed : CoesClosed pe.coes)
    (hnoself : ∀ a, hasCoe pe.coes a a = false)
    (hprov : ∀ provs, updateProvsList sp sorts pe.coes []
      (pe.coes.map (fun e => (e.1, e.2.1))) = .ok provs → provs = pe.coe_prov) :
    ∃ errs2, ParserEnv.merge pe pe Remapper.empty sp sorts errs = (pe, errs2) := by
  have hpe0 : ({ pe with
      delims_l := pe.delims_l.merge pe.delims_l,
      delims_r := pe.delims_r.merge pe.delims_r } : ParserEnv) = pe := by
    rw [Delims.merge_self, Delims.merge_self]
  have hp1 : pePipe1 sp pe (pe, errs) = (pe, errs) := by
    simp only [pePipe1]
    exact mergeConsts_self sp pe pe.consts errs hconst
  have hp2 : pePipe2 sp pe (pe, errs) = (pe, errs) := by
    simp only [pePipe2]
    exact mergePrecAssoc_self sp pe pe.prec_assoc errs hprec
  have hp3 : pePipe3 sp Remapper.empty pe (pe, errs) = (pe, errs) := by
    simp only [pePipe3]
    rw [mergeNotaTable_self sp pe.prefixes pe.prefixes errs hpre]
  have hp4 : pePipe4 sp Remapper.empty pe (pe, errs) = (pe, errs) := by
    simp only [pePipe4]
    rw [mergeNotaTable_self sp pe.infixes pe.infixes errs hinf]
  obtain ⟨errsC, hcoes⟩ := mergeCoes_self sp sorts pe hclosed hnoself pe.coes errs
    (fun e he => List.any_eq_true.mpr ⟨e, he, by simp⟩)
  have hp5 : pePipe5 sp sorts Remapper.empty pe (pe, errs) = (pe, errsC) := by
    simp only [pePipe5]
    exact hcoes
  have hp6 : ∃ errs2, pePipe6 sp sorts (pe, errsC) = (pe, errs2) := by
    rcases hup : updateProvsList sp sorts pe.coes []
        (pe.coes.map (fun e => (e.1, e.2.1))) with e | provs
    · exact ⟨errsC ++ [e], by simp only [pePipe6, ParserEnv.update_provs, hup]⟩
    · refine ⟨errsC, ?_⟩
      simp only [pePipe6, ParserEnv.update_provs, hup]
      rw [hprov provs hup]
  obtain ⟨errs2, hp6⟩ := hp6
  refine ⟨errs2, ?_⟩
  unfold ParserEnv.merge
  rw [hpe0, hp1, hp2, hp3, hp4, hp5, hp6]

theorem mergeStmts_self (E : Environment) (sp : Span)
    (hs : E.sorts.length < 256) (ht : E.terms.length < 2 ^ 32)
    (hh : E.thms.length < 2 ^ 32) :
    ∀ (l : List StmtTrace) (errs : List ElabError),
    (∀ s, StmtTrace.sort s ∈ l →
      ∃ i, alookup E.sort_keys s = some i ∧ i.n < E.sorts.length) →
    (∀ s, StmtTrace.decl s ∈ l →
      (∃ i, alookup E.decl_keys s = some (.term i) ∧ i.n < E.terms.length) ∨
      (∃ i, alookup E.decl_keys s = some (.thm i) ∧ i.n < E.thms.length)) →
    mergeStmts E sp E Remapper.empty errs l = some (E, Remapper.empty, errs) := by
  intro l
  induction l with
  | nil => intro errs _ _; rfl
  | cons st rest ih =>
    intro errs hsort hdecl
    cases st with
    | sort s =>
      obtain ⟨i, hlook, hlt⟩ := hsort s (by simp)
      have hget : E.sorts[i.n]? = some (E.sorts.get ⟨i.n, hlt⟩) := by
        rw [List.getElem?_eq_getElem hlt]
        rfl
      have hadd : E.add_sort s (E.sorts.get ⟨i.n, hlt⟩).span (E.sorts.get ⟨i.n, hlt⟩).mods
          = some (.ok i, E) := by
        simp [Environment.add_sort, hlook, hget] <;> omega
      unfold mergeStmts
      simp only [hlook, hget, hadd, if_true]
      exact ih errs (fun s hs' => hsort s (by simp [hs']))
        (fun s hs' => hdecl s (by simp [hs']))
    | decl s =>
      rcases hdecl s (by simp) with ⟨i, hlook, hlt⟩ | ⟨i, hlook, hlt⟩
      · have hget : E.terms[i.n]? = some (E.terms.get ⟨i.n, hlt⟩) := by
          rw [List.getElem?_eq_getElem hlt]
          rfl
        have hadd : E.add_term s (E.terms.get ⟨i.n, hlt⟩).span
            (fun _ => (E.terms.get ⟨i.n, hlt⟩).remap Remapper.empty) = some (.ok i, E) := by
          simp [Environment.add_term, hlook, hget] <;> omega
        unfold mergeStmts
        simp only [hlook, hget, hadd, if_true]
        exact ih errs (fun s hs' => hsort s (by simp [hs']))
          (fun s hs' => hdecl s (by simp [hs']))
      · have hget : E.thms[i.n]? = some (E.thms.get ⟨i.n, hlt⟩) := by
          rw [List.getElem?_eq_getElem hlt]
          rfl
        have hadd : E.add_thm s (E.thms.get ⟨i.n, hlt⟩).span
            (fun _ => (E.thms.get ⟨i.n, hlt⟩).remap Remapper.empty) = some (.ok i, E) := by
          simp [Environment.add_thm, hlook, hget] <;> omega
        unfold mergeStmts
        simp only [hlook, hget, hadd, if_true]
        exact ih errs (fun s hs' => hsort s (by simp [hs']))
          (fun s hs' => hdecl s (by simp [hs']))

/-- C8 (amended): merging an internally consistent environment whose
coercion graph is transitively closed into an identical copy of itself
leaves the primary structurally equal to the input: every sort and
declaration collapses onto its existing id, the remapper stays empty, and
no table entry, statement-trace entry, or coercion edge is added or
changed.  (Without transitive closure the coercion replay can insert
missing composite edges before hitting the duplicate-edge error — see the
counterexample.) -/
theorem env_self_merge (E : Environment) (sp : Span) (errs : List ElabError)
    (hwf : EnvWF E) (hclosed : CoesClosed E.pe.coes) :
    ∃ errs2, E.mergeRes E sp errs = some (E, Remapper.empty, errs2) := by
  unfold Environment.mergeRes
  by_cases hemp : E.stmts.isEmpty
  · rw [if_pos hemp]
    exact ⟨errs, rfl⟩
  · rw [if_neg hemp]
    rw [mergeStmts_self E sp hwf.sorts_lt hwf.terms_lt hwf.thms_lt E.stmts errs
      hwf.sort_stmts hwf.decl_stmts]
    obtain ⟨errs2, hpe⟩ := parser_env_merge_self E.pe sp E.sorts errs
      hwf.consts_self hwf.prec_self hwf.prefixes_self hwf.infixes_self
      hclosed hwf.coes_noself (hwf.prov_self sp)
    refine ⟨errs2, ?_⟩
    show some (mergeFinish E sp (E, Remapper.empty, errs)) = _
    simp only [mergeFinish]
    rw [hpe]

set_option maxRecDepth 10000 in
/-- C8 counterexample: self-merging the environment holding the reachable
but not transitively closed coercion graph `peG3` inserts the missing
composite edge `a → b`, so the primary is not structurally equal to the
input. -/
theorem env_self_merge_counterexample :
    ∃ v, envGap.mergeRes envGap sp0 [] = some v ∧
      hasCoe v.1.pe.coes ⟨0⟩ ⟨3⟩ = true ∧ hasCoe envGap.pe.coes ⟨0⟩ ⟨3⟩ = false :=
  ⟨_, rfl, by decide, by decide⟩

/-- C8 witness: the amended self-merge theorem applied to the concrete
environment `envC5`. -/
theorem env_self_merge_witness :
    ∃ errs2, envC5.mergeRes envC5 sp0 [] = some (envC5, Remapper.empty, errs2) := by
  refine env_self_merge envC5 sp0 [] ?_ ?_
  · refine ⟨by decide, by decide, by decide, ?_, ?_, ?_, ?_, ?_, ?_, ?_, ?_⟩
    · intro s hs
      simp [envC5] at hs
      subst hs
      exact ⟨⟨0⟩, rfl, by decide⟩
    · intro s hs
      simp [envC5] at hs
      rcases hs with rfl | rfl
      · exact Or.inl ⟨⟨0⟩, rfl, by decide⟩
      · exact Or.inr ⟨⟨0⟩, rfl, by decide⟩
    · intro p hp
      simp [envC5, pe0] at hp
    · intro p hp
      simp [envC5, pe0] at hp
    · intro p hp
      simp [envC5, pe0] at hp
    · intro p hp
      simp [envC5, pe0] at hp
    · intro a
      rfl
    · intro sp provs h
      injection h with h
      exact h.symm
  · intro a b c hab _
    simp [envC5, pe0, hasCoe] at hab

/-- C2 evaluation at the failing input (a definition `foo x := bar x x` with
one argument, heap `[Ref 0]` and body `App(bar, [Ref 0, Ref 0])`): the
emitted unify stream is the single byte `UNIFY_TERM` — the second and third
occurrences of the already-assigned slot emit nothing, so no `UNIFY_REF`
(0x32) opcode appears, contradicting the claimed stream
`Term(bar), Ref(0), Ref(0)`. -/
theorem write_expr_unify_drops_refs :
    (∃ f, unifyRun 100 [ExprNode.ref 0] (Reorder.new 1 1) []
      [ExprNode.app ⟨0⟩ [.ref 0, .ref 0]] [] =
      some ([UNIFY_TERM], ⟨[some 0], 1⟩, [], f)) ∧
    ([UNIFY_TERM] : List Nat) ≠ [UNIFY_TERM, UNIFY_REF, UNIFY_REF] := by
  exact ⟨⟨97, by decide⟩, by decide⟩

theorem zeros_append (m n : Nat) : zeros m ++ zeros n = zeros (m + n) := by
  simp [zeros, ← List.replicate_add]

theorem readAt_zeros (m off n : Nat) (h : off + n ≤ m) :
    readAt (zeros m) off n = zeros n := by
  unfold readAt zeros
  rw [List.drop_replicate, List.take_replicate]
  congr 1
  omega

theorem serialize_u32_length (n : Nat) : (Value.u32 n).serialize.length = 4 := rfl

theorem serialize_u64_length (n : Nat) : (Value.u64 n).serialize.length = 8 := rfl

theorem serialize_box_length (bs : List Nat) :
    (Value.box bs).serialize.length = bs.length := rfl

theorem write_term_header_length (nargs : Nat) (s : SortID) (hd : Bool) (p : Nat) :
    (write_term_header nargs s hd p).length = 8 := by
  simp [write_term_header, le16, le32]

theorem write_thm_header_length (nargs p : Nat) :
    (write_thm_header nargs p).length = 8 := by
  simp [write_thm_header, le16, le32]

theorem runHeader_length (env : Environment) :
    (runHeader env).length = 40 + env.sorts.length := by
  simp [runHeader, le32, zeros]
  omega

theorem runHeader_read (env : Environment) (off n : Nat)
    (h16 : 16 ≤ off) (h40 : off + n ≤ 40) :
    readAt (runHeader env) off n = zeros n := by
  have hsplit : runHeader env
      = ([0x4D, 0x4D, 0x30, 0x42] ++ le32 (1 ||| (env.sorts.length <<< 8))
          ++ le32 env.terms.length ++ le32 env.thms.length)
        ++ (zeros 24 ++ env.sorts.map (fun s => s.mods.bits % 256)) := by
    simp [runHeader, zeros_append, List.append_assoc, zeros]
  have hlen : ([0x4D, 0x4D, 0x30, 0x42] ++ le32 (1 ||| (env.sorts.length <<< 8))
      ++ le32 env.terms.length ++ le32 env.thms.length).length = 16 := by
    simp [le32]
  rw [hsplit, readAt_append_right _ _ off n (by rw [hlen]; omega), hlen]
  rw [readAt_append_left _ _ (off - 16) n (by rw [length_zeros]; omega)]
  exact readAt_zeros 24 (off - 16) n (by omega)

theorem termBodies_chunks_length (ts : List Term) :
    ∀ L bodies chunks reords, termBodies L ts = some (bodies, chunks, reords) →
    chunks.flatten.length = 8 * ts.length := by
  induction ts with
  | nil =>
    intro L bodies chunks reords h
    simp only [termBodies, Option.some.injEq, Prod.mk.injEq] at h
    rw [← h.2.1]
    simp
  | cons t rest ih =>
    intro L bodies chunks reords h
    simp only [termBodies] at h
    split at h
    · cases h
    split at h
    · cases h
    split at h
    · cases h
    next binders hw =>
      split at h
      · cases h
      next bodyTail reord hv =>
        split at h
        · cases h
        next rest2 chunks2 reords2 hr =>
          simp only [Option.some.injEq, Prod.mk.injEq] at h
          rw [← h.2.1]
          simp only [List.flatten_cons, List.length_append,
            write_term_header_length, List.length_cons]
          rw [ih _ _ _ _ hr]
          ring

theorem thmBodies_chunks_length (ts : List Thm) :
    ∀ L bodies chunks reords, thmBodies L ts = some (bodies, chunks, reords) →
    chunks.flatten.length = 8 * ts.length := by
  induction ts with
  | nil =>
    intro L bodies chunks reords h
    simp only [thmBodies, Option.some.injEq, Prod.mk.injEq] at h
    rw [← h.2.1]
    simp
  | cons t rest ih =>
    intro L bodies chunks reords h
    simp only [thmBodies] at h
    split at h
    · cases h
    split at h
    · cases h
    split at h
    · cases h
    next binders hw =>
      split at h
      · cases h
      next ubody r hv =>
        split at h
        · cases h
        next rest2 chunks2 reords2 hr =>
          simp only [Option.some.injEq, Prod.mk.injEq] at h
          rw [← h.2.1]
          simp only [List.flatten_cons, List.length_append,
            write_thm_header_length, List.length_cons]
          rw [ih _ _ _ _ hr]
          ring

theorem termSection_inv (env : Environment) (L0 : Nat) (dt : List Nat)
    (toff : Nat) (tbox : List Nat) (reords : List (Option Reorder))
    (h : termSection env L0 = some (dt, toff, tbox, reords)) :
    toff = L0 + alignPad L0 ∧ tbox.length = 8 * env.terms.length ∧
    ∃ bodies, dt = zeros (alignPad L0) ++ zeros (8 * env.terms.length) ++ bodies := by
  simp only [termSection] at h
  split at h
  · cases h
  split at h
  · cases h
  next bodies chunks reords2 hr =>
    simp only [Option.some.injEq, Prod.mk.injEq] at h
    refine ⟨h.2.1.symm, ?_, bodies, h.1.symm⟩
    rw [← h.2.2.1]
    exact termBodies_chunks_length env.terms _ _ _ _ hr

theorem thmSection_inv (env : Environment) (L0 : Nat) (dh : List Nat)
    (hoff : Nat) (hbox : List Nat) (reords : List Reorder)
    (h : thmSection env L0 = some (dh, hoff, hbox, reords)) :
    hoff = L0 + alignPad L0 ∧ hbox.length = 8 * env.thms.length ∧
    ∃ bodies, dh = zeros (alignPad L0) ++ zeros (8 * env.thms.length) ++ bodies := by
  simp only [thmSection] at h
  split at h
  · cases h
  split at h
  · cases h
  next bodies chunks reords2 hr =>
    simp only [Option.some.injEq, Prod.mk.injEq] at h
    refine ⟨h.2.1.symm, ?_, bodies, h.1.symm⟩
    rw [← h.2.2.1]
    exact thmBodies_chunks_length env.thms _ _ _ _ hr

/-- C1: after `Exporter::run` writes the main stream, every recorded fixup
(`p_terms`, the term header table, `p_thms`, the theorem header table,
`p_proof` and `p_index`) covers an in-range region of the output that still
holds its zero placeholder bytes; the regions are pairwise disjoint, so
applying the deferred fixup list (one seek and write per fixup) preserves
the file length and leaves each committed value at its reserved offset in
the finished file. -/
theorem exporter_run_fixups (env : Environment) (st : RunResult)
    (h : Exporter.run env = some st) :
    (∀ g ∈ st.fixups,
        g.1 + g.2.serialize.length ≤ st.out.length ∧
        readAt st.out g.1 g.2.serialize.length = zeros g.2.serialize.length) ∧
    st.fixups.Pairwise FixupDisj ∧
    (applyFixups st.out st.fixups).length = st.out.length ∧
    (∀ g ∈ st.fixups,
        readAt (applyFixups st.out st.fixups) g.1 g.2.serialize.length
          = g.2.serialize) := by
  simp only [Exporter.run] at h
  split at h
  · cases h
  split at h
  · cases h
  split at h
  · cases h
  split at h
  · cases h
  next dt toff tbox treords hts =>
    split at h
    · cases h
    next dh hoff hbox hreords hhs =>
      split at h
      · cases h
      next dp hps =>
        injection h with h
        subst h
        dsimp only
        obtain ⟨ht1, ht2, bodies, ht3⟩ :=
          termSection_inv env _ dt toff tbox treords hts
        obtain ⟨hh1, hh2, bodies2, hh3⟩ :=
          thmSection_inv env _ dh hoff hbox hreords hhs
        have hdr := runHeader_length env
        have hdtlen : dt.length = alignPad (40 + env.sorts.length)
            + 8 * env.terms.length + bodies.length := by
          rw [ht3]
          simp only [List.length_append, length_zeros]
        have hdhlen : dh.length = alignPad (40 + env.sorts.length + dt.length)
            + 8 * env.thms.length + bodies2.length := by
          rw [hh3]
          simp only [List.length_append, length_zeros]
        have houtlen : (runHeader env ++ dt ++ dh ++ dp ++ [0]).length
            = 40 + env.sorts.length + dt.length + dh.length + dp.length + 1 := by
          simp only [List.length_append, List.length_cons, List.length_nil, hdr]
        have hassoc : runHeader env ++ dt ++ dh ++ dp ++ [0]
            = runHeader env ++ (dt ++ (dh ++ (dp ++ [0]))) := by
          simp only [List.append_assoc]
        have hassoc2 : runHeader env ++ dt ++ dh ++ dp ++ [0]
            = (runHeader env ++ dt) ++ (dh ++ (dp ++ [0])) := by
          simp only [List.append_assoc]
        have hlen2 : (runHeader env ++ dt).length
            = 40 + env.sorts.length + dt.length := by
          simp only [List.length_append, hdr]
        have hread16 : readAt (runHeader env ++ dt ++ dh ++ dp ++ [0]) 16 4
            = zeros 4 := by
          rw [hassoc, readAt_append_left _ _ 16 4 (by rw [hdr]; omega)]
          exact runHeader_read env 16 4 (by omega) (by omega)
        have hread20 : readAt (runHeader env ++ dt ++ dh ++ dp ++ [0]) 20 4
            = zeros 4 := by
          rw [hassoc, readAt_append_left _ _ 20 4 (by rw [hdr]; omega)]
          exact runHeader_read env 20 4 (by omega) (by omega)
        have hread24 : readAt (runHeader env ++ dt ++ dh ++ dp ++ [0]) 24 8
            = zeros 8 := by
          rw [hassoc, readAt_append_left _ _ 24 8 (by rw [hdr]; omega)]
          exact runHeader_read env 24 8 (by omega) (by omega)
        have hread32 : readAt (runHeader env ++ dt ++ dh ++ dp ++ [0]) 32 8
            = zeros 8 := by
          rw [hassoc, readAt_append_left _ _ 32 8 (by rw [hdr]; omega)]
          exact runHeader_read env 32 8 (by omega) (by omega)
        have hreadT : readAt (runHeader env ++ dt ++ dh ++ dp ++ [0]) toff
            (8 * env.terms.length) = zeros (8 * env.terms.length) := by
          rw [hassoc, readAt_append_right _ _ toff _ (by rw [hdr]; omega), hdr]
          have hoffeq : toff - (40 + env.sorts.length)
              = alignPad (40 + env.sorts.length) := by omega
          rw [hoffeq, ht3]
          simp only [List.append_assoc]
          rw [readAt_append_right _ _ _ _ (le_of_eq (length_zeros _)),
            length_zeros, Nat.sub_self]
          rw [readAt_append_left _ _ 0 _ (by rw [length_zeros]; omega)]
          exact readAt_zeros _ 0 _ (by omega)
        have hreadH : readAt (runHeader env ++ dt ++ dh ++ dp ++ [0]) hoff
            (8 * env.thms.length) = zeros (8 * env.thms.length) := by
          rw [hassoc2, readAt_append_right _ _ hoff _ (by rw [hlen2]; omega), hlen2]
          have hoffeq : hoff - (40 + env.sorts.length + dt.length)
              = alignPad (40 + env.sorts.length + dt.length) := by omega
          rw [hoffeq, hh3]
          simp only [List.append_assoc]
          rw [readAt_append_right _ _ _ _ (le_of_eq (length_zeros _)),
            length_zeros, Nat.sub_self]
          rw [readAt_append_left _ _ 0 _ (by rw [length_zeros]; omega)]
          exact readAt_zeros _ 0 _ (by omega)
        have hfix : ∀ g ∈ [(16, Value.u32 toff), (toff, Value.box tbox),
            (20, Value.u32 hoff), (hoff, Value.box hbox),
            (24, Value.u64 (40 + env.sorts.length + dt.length + dh.length)),
            (32, Value.u64 0)],
            g.1 + g.2.serialize.length
              ≤ (runHeader env ++ dt ++ dh ++ dp ++ [0]).length ∧
            readAt (runHeader env ++ dt ++ dh ++ dp ++ [0]) g.1
              g.2.serialize.length = zeros g.2.serialize.length := by
          intro g hg
          simp only [List.mem_cons, List.not_mem_nil, or_false] at hg
          rcases hg with rfl | rfl | rfl | rfl | rfl | rfl
          · dsimp only
            rw [serialize_u32_length]
            exact ⟨by omega, hread16⟩
          · dsimp only
            rw [serialize_box_length, ht2]
            exact ⟨by omega, hreadT⟩
          · dsimp only
            rw [serialize_u32_length]
            exact ⟨by omega, hread20⟩
          · dsimp only
            rw [serialize_box_length, hh2]
            exact ⟨by omega, hreadH⟩
          · dsimp only
            rw [serialize_u64_length]
            exact ⟨by omega, hread24⟩
          · dsimp only
            rw [serialize_u64_length]
            exact ⟨by omega, hread32⟩
        have hdisj : List.Pairwise FixupDisj [(16, Value.u32 toff),
            (toff, Value.box tbox), (20, Value.u32 hoff), (hoff, Value.box hbox),
            (24, Value.u64 (40 + env.sorts.length + dt.length + dh.length)),
            (32, Value.u64 0)] := by
          simp only [List.pairwise_cons, List.mem_cons, List.not_mem_nil, or_false,
            forall_eq_or_imp, forall_eq, List.Pairwise.nil, and_true,
            FixupDisj, serialize_u32_length, serialize_u64_length,
            serialize_box_length]
          refine ⟨?_, ?_, ?_, ?_, ?_, fun g hg => hg.elim⟩ <;> omega
        exact ⟨hfix, hdisj,
          applyFixups_length _ _ (fun g hg => (hfix g hg).1),
          applyFixups_reads _ _ (fun g hg => (hfix g hg).1) hdisj⟩

/-- C1 witness: the fixup property of the exporter instantiated at the
concrete environment `envW`, whose exporter output is `stW`. -/
theorem exporter_run_fixups_witness :
    Exporter.run envW = some stW ∧
    (∀ g ∈ stW.fixups,
        readAt (applyFixups stW.out stW.fixups) g.1 g.2.serialize.length
          = g.2.serialize) :=
  ⟨by decide, (exporter_run_fixups envW stW (by decide)).2.2.2⟩

end MM0
